import Mathlib

set_option maxHeartbeats 1000000

namespace MaestroCli

/-! # Embedding of the maestro-cli TUI core (internal/tui)

Strings are modelled as `List Char` (the dashboard only ever manipulates
ASCII bytes, so one `Char` per byte is faithful).  The functions below are
shallow embeddings of the Go functions in `internal/tui`. -/

/-- The ASCII ESC character (0x1b) introducing ANSI escape sequences. -/
def escChar : Char := Char.ofNat 27

/-- A CSI parameter byte: `';'` or a digit (the condition of `buildCharMap`'s
inner loop and the `[0-9;]*` part of the `stripANSI` regular expression). -/
def isCSIParam (c : Char) : Bool :=
  c == ';' || ('0' ≤ c && c ≤ '9')

/-- A final command letter as required by the `stripANSI` regular expression
(`[a-zA-Z]`).  Note `buildCharMap` does NOT require the final byte to be a
letter; it consumes any byte after the parameters. -/
def isAlphaByte (c : Char) : Bool :=
  ('a' ≤ c && c ≤ 'z') || ('A' ≤ c && c ≤ 'Z')

/-- Scanner state for `buildCharMap`: either scanning regular bytes, having
just seen an ESC, or inside the parameter bytes of a CSI sequence. -/
inductive BcmState where
  | norm
  | sawEsc
  | inSeq
deriving DecidableEq, Repr

/-- One-byte-at-a-time rendering of the `buildCharMap` loop of
`internal/tui/styles.go`.  `i` is the byte position of the head of the
remaining input.  In state `sawEsc` the ESC sits at position `i - 1`; if the
next byte is not `'['` the ESC is recorded as a regular byte (matching the
Go condition `ansiStr[i] == ESC && i+1 < len && ansiStr[i+1] == '['`).
In state `inSeq` parameter bytes are skipped and then one byte — whatever it
is — is consumed as the "final command letter"; an unterminated sequence
consumes to end-of-string recording nothing.  The sentinel `[i]` at the end
mirrors `charMap = append(charMap, i)` after the loop. -/
def bcmRun : BcmState → List Char → Nat → List Nat
  | .norm, [], i => [i]
  | .sawEsc, [], i => [i - 1, i]
  | .inSeq, [], i => [i]
  | .norm, c :: rest, i =>
    if c = escChar then bcmRun .sawEsc rest (i + 1)
    else i :: bcmRun .norm rest (i + 1)
  | .sawEsc, c :: rest, i =>
    if c = '[' then bcmRun .inSeq rest (i + 1)
    else
      (i - 1) ::
        (if c = escChar then bcmRun .sawEsc rest (i + 1)
         else i :: bcmRun .norm rest (i + 1))
  | .inSeq, c :: rest, i =>
    if isCSIParam c then bcmRun .inSeq rest (i + 1)
    else bcmRun .norm rest (i + 1)

/-- `buildCharMap` of `internal/tui/styles.go`: maps plain-text byte indices
to byte offsets inside the ANSI-decorated string, with a trailing sentinel
equal to the string's length. -/
def buildCharMap (s : List Char) : List Nat := bcmRun .norm s 0

/-- Scanner state for `stripANSI` (the regular expression
`ESC \[ [0-9;]* [a-zA-Z]` applied with leftmost-match-and-remove semantics).
`inSeq ps` remembers the parameter bytes seen so far so they can be emitted
verbatim if the candidate match fails (no final letter). -/
inductive StripState where
  | norm
  | sawEsc
  | inSeq (ps : List Char)
deriving DecidableEq, Repr

/-- One-byte-at-a-time rendering of Go's
`ansiEscRe.ReplaceAllString(s, "")` with `ansiEscRe = \x1b\[[0-9;]*[a-zA-Z]`.
A match attempt starts at each ESC; since no parameter byte is a letter the
greedy scan is exact: parameters are consumed until a letter ends the match
(the whole sequence is removed) or any other byte aborts it (everything seen
is kept and scanning resumes at the aborting byte, which is the next
position where a match could start). -/
def stripRun : StripState → List Char → List Char
  | .norm, [] => []
  | .sawEsc, [] => [escChar]
  | .inSeq ps, [] => escChar :: '[' :: ps
  | .norm, c :: rest =>
    if c = escChar then stripRun .sawEsc rest
    else c :: stripRun .norm rest
  | .sawEsc, c :: rest =>
    if c = '[' then stripRun (.inSeq []) rest
    else if c = escChar then escChar :: stripRun .sawEsc rest
    else escChar :: c :: stripRun .norm rest
  | .inSeq ps, c :: rest =>
    if isAlphaByte c then stripRun .norm rest
    else if isCSIParam c then stripRun (.inSeq (ps ++ [c])) rest
    else
      escChar :: '[' :: ps ++
        (if c = escChar then stripRun .sawEsc rest
         else c :: stripRun .norm rest)

/-- `stripANSI` of `internal/tui/styles.go`: removes terminal escape
sequences, producing plain text. -/
def stripANSI (s : List Char) : List Char := stripRun .norm s

/-! ## Generative model of decorated strings

A decorated string "built by this system" is an interleaving of plain
characters and well-formed ANSI CSI escape sequences
(`ESC '[' <params> <letter>`). -/

/-- A token of a decorated string: a plain character or a CSI escape
sequence with its parameter bytes and final command letter. -/
inductive Tok where
  | plain (c : Char)
  | csi (params : List Char) (final : Char)
deriving DecidableEq, Repr

/-- Byte rendering of a token. -/
def Tok.render : Tok → List Char
  | .plain c => [c]
  | .csi ps f => escChar :: '[' :: (ps ++ [f])

/-- Well-formedness: plain characters are not ESC; escape sequences carry
only parameter bytes and end in a letter. -/
def Tok.wf : Tok → Prop
  | .plain c => c ≠ escChar
  | .csi ps f => (∀ c ∈ ps, isCSIParam c = true) ∧ isAlphaByte f = true

instance : DecidablePred Tok.wf := fun t => by
  cases t with
  | plain c => exact inferInstanceAs (Decidable (c ≠ escChar))
  | csi ps f =>
    exact inferInstanceAs (Decidable ((∀ c ∈ ps, isCSIParam c = true) ∧ isAlphaByte f = true))

/-- All tokens of a list are well-formed. -/
def WfToks (ts : List Tok) : Prop := ∀ t ∈ ts, t.wf

instance : DecidablePred WfToks := fun ts =>
  inferInstanceAs (Decidable (∀ t ∈ ts, t.wf))

/-- The decorated string rendered from a token list. -/
def renderToks : List Tok → List Char
  | [] => []
  | t :: ts => t.render ++ renderToks ts

/-- The plain (escape-stripped) characters of a token list. -/
def plainOf : List Tok → List Char
  | [] => []
  | .plain c :: ts => c :: plainOf ts
  | .csi _ _ :: ts => plainOf ts

/-- Byte offset, inside the rendered string, of the `a`-th plain character
(or the total rendered length when `a` is at least the plain count). -/
def plainOffset : List Tok → Nat → Nat
  | [], _ => 0
  | .plain _ :: _, 0 => 0
  | .plain _ :: ts, a + 1 => 1 + plainOffset ts a
  | .csi ps _ :: ts, a => ps.length + 3 + plainOffset ts a

/-- The list of byte offsets of all plain characters, starting at base
offset `i` (the entries `buildCharMap` records, without the sentinel). -/
def plainOffsets : List Tok → Nat → List Nat
  | [], _ => []
  | .plain _ :: ts, i => i :: plainOffsets ts (i + 1)
  | .csi ps _ :: ts, i => plainOffsets ts (i + ps.length + 3)

/-- The token suffix starting at the `a`-th plain token (escape tokens in
front of it are dropped). -/
def afterPlain : List Tok → Nat → List Tok
  | [], _ => []
  | .plain c :: ts, 0 => .plain c :: ts
  | .plain _ :: ts, a + 1 => afterPlain ts a
  | .csi _ _ :: ts, a => afterPlain ts a

/-- The tokens rendered strictly before the `a`-th plain character's byte
offset (for `a = 0` this is the run of leading escape tokens... none, since
offset 0 of a plain-headed list is 0; see `renderToks_take_plainOffset`). -/
def beforePlain : List Tok → Nat → List Tok
  | [], _ => []
  | .plain _ :: _, 0 => []
  | .plain c :: ts, a + 1 => .plain c :: beforePlain ts a
  | .csi ps f :: ts, a => .csi ps f :: beforePlain ts a

/-! ## Basic character facts -/

theorem char_le_toNat {a b : Char} (h : a ≤ b) : a.val.toNat ≤ b.val.toNat := by
  rw [Char.le_def] at h; exact h

theorem char_toNat_le {a b : Char} (h : a.val.toNat ≤ b.val.toNat) : a ≤ b := by
  rw [Char.le_def]; exact h

theorem alphaByte_not_param {c : Char} (h : isAlphaByte c = true) :
    isCSIParam c = false := by
  cases hcs : isCSIParam c with
  | false => rfl
  | true =>
    exfalso
    simp only [isAlphaByte, Bool.or_eq_true, Bool.and_eq_true, decide_eq_true_eq] at h
    simp only [isCSIParam, Bool.or_eq_true, Bool.and_eq_true, beq_iff_eq,
      decide_eq_true_eq] at hcs
    rcases hcs with rfl | ⟨g1, g2⟩
    · revert h; decide
    · have n4 := char_le_toNat g2
      have e4 : ('9' : Char).val.toNat = 57 := by decide
      rcases h with ⟨h1, _⟩ | ⟨h1, _⟩
      · have := char_le_toNat h1
        have e1 : ('a' : Char).val.toNat = 97 := by decide
        omega
      · have := char_le_toNat h1
        have e1 : ('A' : Char).val.toNat = 65 := by decide
        omega

theorem bracket_ne_esc : ('[' : Char) ≠ escChar := by decide

/-! ## Unfolding lemmas for `bcmRun` on well-formed token renders -/

theorem bcmRun_inSeq_params {ps : List Char} (hps : ∀ c ∈ ps, isCSIParam c = true)
    {f : Char} (hf : isCSIParam f = false) (rest : List Char) (i : Nat) :
    bcmRun .inSeq (ps ++ f :: rest) i = bcmRun .norm rest (i + ps.length + 1) := by
  induction ps generalizing i with
  | nil => simp [bcmRun, hf]
  | cons p ps ih =>
    have hp : isCSIParam p = true := hps p (by simp)
    have hps' : ∀ c ∈ ps, isCSIParam c = true := fun c hc => hps c (by simp [hc])
    have hstep : bcmRun .inSeq ((p :: ps) ++ f :: rest) i
        = bcmRun .inSeq (ps ++ f :: rest) (i + 1) := by
      simp [bcmRun, hp]
    rw [hstep, ih hps']
    congr 1
    simp only [List.length_cons]
    omega

theorem renderToks_nil : renderToks [] = [] := rfl

theorem renderToks_plain (c : Char) (ts : List Tok) :
    renderToks (.plain c :: ts) = c :: renderToks ts := rfl

theorem renderToks_csi (ps : List Char) (f : Char) (ts : List Tok) :
    renderToks (.csi ps f :: ts) = escChar :: '[' :: (ps ++ f :: renderToks ts) := by
  simp [renderToks, Tok.render]

theorem length_renderToks_csi (ps : List Char) (f : Char) (ts : List Tok) :
    (renderToks (.csi ps f :: ts)).length = ps.length + 3 + (renderToks ts).length := by
  rw [renderToks_csi]
  simp only [List.length_cons, List.length_append]
  omega

theorem length_renderToks_plain (c : Char) (ts : List Tok) :
    (renderToks (.plain c :: ts)).length = 1 + (renderToks ts).length := by
  rw [renderToks_plain]
  simp only [List.length_cons]
  omega

/-- The core structure of `buildCharMap` on a well-formed decorated prefix:
one entry per plain character at that character's byte offset, then whatever
the scan of the remaining input `v` produces. -/
theorem bcmRun_render_append {ts : List Tok} (h : WfToks ts) (v : List Char) (i : Nat) :
    bcmRun .norm (renderToks ts ++ v) i
      = plainOffsets ts i ++ bcmRun .norm v (i + (renderToks ts).length) := by
  induction ts generalizing i with
  | nil => simp [renderToks, plainOffsets]
  | cons t ts ih =>
    have ht : t.wf := h t (by simp)
    have hts : WfToks ts := fun u hu => h u (by simp [hu])
    cases t with
    | plain c =>
      have hc : c ≠ escChar := ht
      rw [renderToks_plain]
      simp only [List.cons_append]
      have hstep : bcmRun .norm (c :: (renderToks ts ++ v)) i
          = i :: bcmRun .norm (renderToks ts ++ v) (i + 1) := by
        simp [bcmRun, hc]
      rw [hstep, ih hts]
      have hsen : (i + 1) + (renderToks ts).length
          = i + (c :: renderToks ts).length := by
        simp only [List.length_cons]; omega
      rw [hsen]
      simp [plainOffsets]
    | csi ps f =>
      obtain ⟨hps, hf⟩ := ht
      rw [renderToks_csi]
      simp only [List.cons_append, List.append_assoc, List.cons_append]
      have hstep : bcmRun .norm (escChar :: '[' :: (ps ++ f :: (renderToks ts ++ v))) i
          = bcmRun .inSeq (ps ++ f :: (renderToks ts ++ v)) (i + 1 + 1) := by
        simp [bcmRun]
      rw [hstep, bcmRun_inSeq_params hps (alphaByte_not_param hf), ih hts]
      have harg : i + 1 + 1 + ps.length + 1 = i + ps.length + 3 := by omega
      rw [harg]
      have hsen : (i + ps.length + 3) + (renderToks ts).length
          = i + (escChar :: '[' :: (ps ++ f :: renderToks ts)).length := by
        simp only [List.length_cons, List.length_append]; omega
      rw [hsen]
      simp [plainOffsets]

theorem buildCharMap_render {ts : List Tok} (h : WfToks ts) :
    buildCharMap (renderToks ts)
      = plainOffsets ts 0 ++ [(renderToks ts).length] := by
  unfold buildCharMap
  have := bcmRun_render_append h [] 0
  simpa [bcmRun] using this

/-! ## The offsets list versus the `plainOffset` function -/

theorem length_plainOffsets (ts : List Tok) (i : Nat) :
    (plainOffsets ts i).length = (plainOf ts).length := by
  induction ts generalizing i with
  | nil => rfl
  | cons t ts ih =>
    cases t with
    | plain c => simp [plainOffsets, plainOf, ih]
    | csi ps f => simp [plainOffsets, plainOf, ih]

theorem getD_plainOffsets {ts : List Tok} {a : Nat}
    (ha : a ≤ (plainOf ts).length) (i : Nat) :
    (plainOffsets ts i ++ [i + (renderToks ts).length]).getD a 0
      = i + plainOffset ts a := by
  induction ts generalizing a i with
  | nil =>
    have ha0 : a = 0 := by
      simp only [plainOf, List.length_nil] at ha; omega
    subst ha0
    simp [plainOffsets, renderToks, plainOffset]
  | cons t ts ih =>
    cases t with
    | plain c =>
      cases a with
      | zero => simp [plainOffsets, plainOffset]
      | succ a =>
        simp only [plainOf, List.length_cons] at ha
        have ha' : a ≤ (plainOf ts).length := by omega
        have hsen : i + (renderToks (Tok.plain c :: ts)).length
            = (i + 1) + (renderToks ts).length := by
          rw [length_renderToks_plain]; omega
        rw [hsen]
        simp only [plainOffsets, List.cons_append, List.getD_cons_succ]
        rw [ih ha']
        simp only [plainOffset]
        omega
    | csi ps f =>
      simp only [plainOf] at ha
      have hsen : i + (renderToks (Tok.csi ps f :: ts)).length
          = (i + ps.length + 3) + (renderToks ts).length := by
        rw [length_renderToks_csi]; omega
      rw [hsen]
      simp only [plainOffsets]
      rw [ih ha]
      simp only [plainOffset]
      omega

/-! ## Slice structure of rendered token lists -/

theorem renderToks_drop_plainOffset (ts : List Tok) (a : Nat) :
    (renderToks ts).drop (plainOffset ts a) = renderToks (afterPlain ts a) := by
  induction ts generalizing a with
  | nil => simp [renderToks, plainOffset, afterPlain]
  | cons t ts ih =>
    cases t with
    | plain c =>
      cases a with
      | zero => simp [plainOffset, afterPlain]
      | succ a =>
        rw [renderToks_plain]
        simp only [plainOffset, afterPlain]
        rw [Nat.add_comm 1 (plainOffset ts a), List.drop_succ_cons]
        exact ih a
    | csi ps f =>
      rw [renderToks_csi]
      simp only [plainOffset, afterPlain]
      have hidx : ps.length + 3 + plainOffset ts a
          = ((ps.length + (plainOffset ts a + 1)) + 1) + 1 := by omega
      rw [hidx, List.drop_succ_cons, List.drop_succ_cons, List.drop_append,
        List.drop_succ_cons]
      exact ih a

theorem renderToks_take_plainOffset (ts : List Tok) (k : Nat) :
    (renderToks ts).take (plainOffset ts k) = renderToks (beforePlain ts k) := by
  induction ts generalizing k with
  | nil => simp [renderToks, plainOffset, beforePlain]
  | cons t ts ih =>
    cases t with
    | plain c =>
      cases k with
      | zero => simp [plainOffset, beforePlain, renderToks]
      | succ k =>
        rw [renderToks_plain]
        simp only [plainOffset, beforePlain]
        rw [Nat.add_comm 1 (plainOffset ts k), List.take_succ_cons, ih k,
          renderToks_plain]
    | csi ps f =>
      rw [renderToks_csi]
      simp only [plainOffset, beforePlain]
      rw [renderToks_csi]
      have hidx : ps.length + 3 + plainOffset ts k
          = ((ps.length + (plainOffset ts k + 1)) + 1) + 1 := by omega
      rw [hidx, List.take_succ_cons, List.take_succ_cons, List.take_append,
        List.take_succ_cons, ih k]

theorem plainOf_afterPlain (ts : List Tok) (a : Nat) :
    plainOf (afterPlain ts a) = (plainOf ts).drop a := by
  induction ts generalizing a with
  | nil => simp [plainOf, afterPlain]
  | cons t ts ih =>
    cases t with
    | plain c =>
      cases a with
      | zero => simp [afterPlain, plainOf]
      | succ a => simp only [afterPlain, plainOf, List.drop_succ_cons]; exact ih a
    | csi ps f => simp only [afterPlain, plainOf]; exact ih a

theorem plainOf_beforePlain (ts : List Tok) (k : Nat) :
    plainOf (beforePlain ts k) = (plainOf ts).take k := by
  induction ts generalizing k with
  | nil => simp [plainOf, beforePlain]
  | cons t ts ih =>
    cases t with
    | plain c =>
      cases k with
      | zero => simp [beforePlain, plainOf]
      | succ k => simp only [beforePlain, plainOf, List.take_succ_cons, ih k]
    | csi ps f => simp only [beforePlain, plainOf]; exact ih k

theorem plainOffset_afterPlain (ts : List Tok) (a c : Nat) :
    plainOffset (afterPlain ts a) c
      = plainOffset ts (a + c) - plainOffset ts a := by
  induction ts generalizing a c with
  | nil => simp [afterPlain, plainOffset]
  | cons t ts ih =>
    cases t with
    | plain x =>
      cases a with
      | zero => simp [afterPlain, plainOffset]
      | succ a =>
        simp only [afterPlain]
        rw [ih a c]
        have : (a + 1) + c = (a + c) + 1 := by omega
        rw [this]
        simp only [plainOffset]
        omega
    | csi ps f =>
      simp only [afterPlain, plainOffset]
      rw [ih a c]
      omega

theorem wfToks_afterPlain {ts : List Tok} (h : WfToks ts) (a : Nat) :
    WfToks (afterPlain ts a) := by
  induction ts generalizing a with
  | nil => simpa [afterPlain] using h
  | cons t ts ih =>
    have hts : WfToks ts := fun u hu => h u (by simp [hu])
    cases t with
    | plain c =>
      cases a with
      | zero => exact h
      | succ a => exact ih hts a
    | csi ps f => exact ih hts a

theorem wfToks_beforePlain {ts : List Tok} (h : WfToks ts) (k : Nat) :
    WfToks (beforePlain ts k) := by
  induction ts generalizing k with
  | nil => simpa [beforePlain] using h
  | cons t ts ih =>
    have ht : t.wf := h t (by simp)
    have hts : WfToks ts := fun u hu => h u (by simp [hu])
    cases t with
    | plain c =>
      cases k with
      | zero => intro u hu; simp [beforePlain] at hu
      | succ k =>
        intro u hu
        simp only [beforePlain, List.mem_cons] at hu
        rcases hu with rfl | hu
        · exact ht
        · exact ih hts k u hu
    | csi ps f =>
      intro u hu
      simp only [beforePlain, List.mem_cons] at hu
      rcases hu with rfl | hu
      · exact ht
      · exact ih hts k u hu

/-! ## Monotonicity of plain-character byte offsets -/

theorem plainOffset_le_plainOffset (ts : List Tok) {a b : Nat} (hab : a ≤ b) :
    plainOffset ts a ≤ plainOffset ts b := by
  induction ts generalizing a b with
  | nil => simp [plainOffset]
  | cons t ts ih =>
    cases t with
    | plain c =>
      cases a with
      | zero => cases b <;> simp [plainOffset]
      | succ a =>
        cases b with
        | zero => omega
        | succ b =>
          simp only [plainOffset]
          have := ih (a := a) (b := b) (by omega)
          omega
    | csi ps f =>
      simp only [plainOffset]
      have := ih hab
      omega

theorem plainOffset_lt_plainOffset (ts : List Tok) {a b : Nat} (hab : a < b)
    (hb : b ≤ (plainOf ts).length) :
    plainOffset ts a < plainOffset ts b := by
  induction ts generalizing a b with
  | nil => simp [plainOf] at hb; omega
  | cons t ts ih =>
    cases t with
    | plain c =>
      cases b with
      | zero => omega
      | succ b =>
        cases a with
        | zero =>
          simp only [plainOffset]
          omega
        | succ a =>
          simp only [plainOf, List.length_cons] at hb
          simp only [plainOffset]
          have := ih (a := a) (b := b) (by omega) (by omega)
          omega
    | csi ps f =>
      simp only [plainOf] at hb
      simp only [plainOffset]
      have := ih hab hb
      omega

/-! ## `stripANSI` on well-formed decorated strings -/

theorem stripRun_norm_plain {c : Char} (h : c ≠ escChar) (rest : List Char) :
    stripRun .norm (c :: rest) = c :: stripRun .norm rest := by
  simp [stripRun, h]

theorem stripRun_inSeq_params {ps : List Char} (hps : ∀ c ∈ ps, isCSIParam c = true)
    {f : Char} (hf : isAlphaByte f = true) (rest : List Char) (acc : List Char) :
    stripRun (.inSeq acc) (ps ++ f :: rest) = stripRun .norm rest := by
  induction ps generalizing acc with
  | nil => simp [stripRun, hf]
  | cons p ps ih =>
    have hp : isCSIParam p = true := hps p (by simp)
    have hpa : isAlphaByte p = false := by
      cases hpa : isAlphaByte p with
      | false => rfl
      | true => rw [alphaByte_not_param hpa] at hp; exact absurd hp (by simp)
    have hps' : ∀ c ∈ ps, isCSIParam c = true := fun c hc => hps c (by simp [hc])
    have hstep : stripRun (.inSeq acc) ((p :: ps) ++ f :: rest)
        = stripRun (.inSeq (acc ++ [p])) (ps ++ f :: rest) := by
      simp [stripRun, hpa, hp]
    rw [hstep, ih hps']

theorem stripRun_norm_csi {ps : List Char} (hps : ∀ c ∈ ps, isCSIParam c = true)
    {f : Char} (hf : isAlphaByte f = true) (rest : List Char) :
    stripRun .norm (escChar :: '[' :: (ps ++ f :: rest)) = stripRun .norm rest := by
  have h1 : stripRun .norm (escChar :: '[' :: (ps ++ f :: rest))
      = stripRun .sawEsc ('[' :: (ps ++ f :: rest)) := by
    simp [stripRun]
  have h2 : stripRun .sawEsc ('[' :: (ps ++ f :: rest))
      = stripRun (.inSeq []) (ps ++ f :: rest) := by
    simp [stripRun]
  rw [h1, h2, stripRun_inSeq_params hps hf]

/-- `stripANSI` is a homomorphism past any well-formed rendered prefix. -/
theorem stripANSI_render_append {ts : List Tok} (h : WfToks ts) (v : List Char) :
    stripRun .norm (renderToks ts ++ v) = plainOf ts ++ stripRun .norm v := by
  induction ts with
  | nil => simp [renderToks, plainOf]
  | cons t ts ih =>
    have ht : t.wf := h t (by simp)
    have hts : WfToks ts := fun u hu => h u (by simp [hu])
    cases t with
    | plain c =>
      rw [renderToks_plain]
      simp only [List.cons_append]
      rw [stripRun_norm_plain ht, ih hts]
      simp [plainOf]
    | csi ps f =>
      obtain ⟨hps, hf⟩ := ht
      rw [renderToks_csi]
      simp only [List.cons_append, List.append_assoc, List.cons_append]
      rw [stripRun_norm_csi hps hf, ih hts]
      simp [plainOf]

/-- On a fully well-formed decorated string, `stripANSI` returns exactly the
plain characters. -/
theorem stripANSI_render {ts : List Tok} (h : WfToks ts) :
    stripANSI (renderToks ts) = plainOf ts := by
  unfold stripANSI
  have := stripANSI_render_append h []
  simpa [stripRun] using this

theorem plainOffset_full (ts : List Tok) :
    plainOffset ts (plainOf ts).length = (renderToks ts).length := by
  induction ts with
  | nil => rfl
  | cons t ts ih =>
    cases t with
    | plain c =>
      simp only [plainOf, List.length_cons, plainOffset, length_renderToks_plain]
      omega
    | csi ps f =>
      simp only [plainOf, plainOffset, length_renderToks_csi]
      omega

theorem bcmRun_ne_nil (s : List Char) : ∀ (st : BcmState) (i : Nat), bcmRun st s i ≠ [] := by
  induction s with
  | nil => intro st i; cases st <;> simp [bcmRun]
  | cons c rest ih =>
    intro st i
    cases st with
    | norm =>
      by_cases hc : c = escChar
      · simpa [bcmRun, hc] using ih .sawEsc (i + 1)
      · simp [bcmRun, hc]
    | sawEsc =>
      by_cases hb : c = '['
      · simpa [bcmRun, hb] using ih .inSeq (i + 1)
      · simp [bcmRun, hb]
    | inSeq =>
      by_cases hp : isCSIParam c = true
      · simpa [bcmRun, hp] using ih .inSeq (i + 1)
      · simpa [bcmRun, hp] using ih .norm (i + 1)

theorem bcmRun_inSeq_allParams {ps : List Char} (hps : ∀ c ∈ ps, isCSIParam c = true)
    (i : Nat) : bcmRun .inSeq ps i = [i + ps.length] := by
  induction ps generalizing i with
  | nil => simp [bcmRun]
  | cons p ps ih =>
    have hp : isCSIParam p = true := hps p (by simp)
    have hps' : ∀ c ∈ ps, isCSIParam c = true := fun c hc => hps c (by simp [hc])
    simp only [bcmRun, hp, if_true]
    rw [ih hps']
    congr 1
    simp only [List.length_cons]
    omega

/-- C1.  Offset-map round trip: on a decorated string made of plain
characters interleaved with ANSI CSI escape sequences, `buildCharMap` has
exactly one entry per plain character plus a trailing sentinel equal to the
string's byte length, and for every valid plain-text range `[a, b)`,
stripping escape sequences from the byte slice between the mapped offsets of
`a` and `b` reproduces exactly the plain characters at positions
`a .. b-1` of the escape-stripped form of the string. -/
theorem C1_offset_map_round_trip (ts : List Tok) (hwf : WfToks ts)
    (a b : Nat) (hab : a ≤ b) (hb : b ≤ (plainOf ts).length) :
    (buildCharMap (renderToks ts)).length = (plainOf ts).length + 1 ∧
    (buildCharMap (renderToks ts)).getD (plainOf ts).length 0
      = (renderToks ts).length ∧
    stripANSI (((renderToks ts).drop
        ((buildCharMap (renderToks ts)).getD a 0)).take
        ((buildCharMap (renderToks ts)).getD b 0
          - (buildCharMap (renderToks ts)).getD a 0))
      = ((plainOf ts).drop a).take (b - a) := by
  have hcm := buildCharMap_render hwf
  have ha : a ≤ (plainOf ts).length := le_trans hab hb
  have hgetD : ∀ k, k ≤ (plainOf ts).length →
      (buildCharMap (renderToks ts)).getD k 0 = plainOffset ts k := by
    intro k hk
    rw [hcm]
    have := getD_plainOffsets hk 0
    simpa using this
  refine ⟨?_, ?_, ?_⟩
  · rw [hcm]
    simp [length_plainOffsets]
  · rw [hgetD _ le_rfl, plainOffset_full]
  · rw [hgetD a ha, hgetD b hb]
    rw [renderToks_drop_plainOffset]
    have hoff : plainOffset ts b - plainOffset ts a
        = plainOffset (afterPlain ts a) (b - a) := by
      rw [plainOffset_afterPlain]
      have hb2 : a + (b - a) = b := by omega
      rw [hb2]
    rw [hoff, renderToks_take_plainOffset,
      stripANSI_render (wfToks_beforePlain (wfToks_afterPlain hwf a) (b - a)),
      plainOf_beforePlain, plainOf_afterPlain]

/-- Witness for C1 at the concrete decorated string
`"X" ++ ESC [31m ++ "Y"` with the full range `[0, 2)`. -/
theorem C1_offset_map_round_trip_witness :
    (WfToks [Tok.plain 'X', Tok.csi ['3', '1'] 'm', Tok.plain 'Y']
      ∧ 0 ≤ 2
      ∧ 2 ≤ (plainOf [Tok.plain 'X', Tok.csi ['3', '1'] 'm', Tok.plain 'Y']).length) ∧
    ((buildCharMap (renderToks [Tok.plain 'X', Tok.csi ['3', '1'] 'm', Tok.plain 'Y'])).length
      = (plainOf [Tok.plain 'X', Tok.csi ['3', '1'] 'm', Tok.plain 'Y']).length + 1 ∧
    (buildCharMap (renderToks [Tok.plain 'X', Tok.csi ['3', '1'] 'm', Tok.plain 'Y'])).getD
        (plainOf [Tok.plain 'X', Tok.csi ['3', '1'] 'm', Tok.plain 'Y']).length 0
      = (renderToks [Tok.plain 'X', Tok.csi ['3', '1'] 'm', Tok.plain 'Y']).length ∧
    stripANSI (((renderToks [Tok.plain 'X', Tok.csi ['3', '1'] 'm', Tok.plain 'Y']).drop
        ((buildCharMap (renderToks [Tok.plain 'X', Tok.csi ['3', '1'] 'm', Tok.plain 'Y'])).getD 0 0)).take
        ((buildCharMap (renderToks [Tok.plain 'X', Tok.csi ['3', '1'] 'm', Tok.plain 'Y'])).getD 2 0
          - (buildCharMap (renderToks [Tok.plain 'X', Tok.csi ['3', '1'] 'm', Tok.plain 'Y'])).getD 0 0))
      = ((plainOf [Tok.plain 'X', Tok.csi ['3', '1'] 'm', Tok.plain 'Y']).drop 0).take (2 - 0)) :=
  ⟨⟨by decide, by decide, by decide⟩,
    C1_offset_map_round_trip [Tok.plain 'X', Tok.csi ['3', '1'] 'm', Tok.plain 'Y']
      (by decide) 0 2 (by decide) (by decide)⟩

/-- C9.  `buildCharMap` is total: it never returns the empty list (it always
at least holds its sentinel) for any input; on the empty string it returns
just the sentinel entry `[0]`; and an unterminated escape sequence
(ESC `'['` followed by parameter bytes with no final command letter) at the
end of an otherwise well-formed decorated string consumes to the end of the
string, recording no mapping entries for its bytes — only the entries for
the plain characters of the prefix plus the sentinel remain. -/
theorem C9_mapper_total_on_degenerate_input :
    (∀ s : List Char, 1 ≤ (buildCharMap s).length) ∧
    buildCharMap [] = [0] ∧
    (∀ ts : List Tok, WfToks ts → ∀ ps : List Char,
      (∀ c ∈ ps, isCSIParam c = true) →
      buildCharMap (renderToks ts ++ escChar :: '[' :: ps)
        = plainOffsets ts 0 ++ [(renderToks ts).length + (ps.length + 2)]) := by
  refine ⟨?_, ?_, ?_⟩
  · intro s
    have := bcmRun_ne_nil s .norm 0
    unfold buildCharMap
    cases h : bcmRun .norm s 0 with
    | nil => exact absurd h this
    | cons x xs => simp
  · rfl
  · intro ts hwf ps hps
    unfold buildCharMap
    rw [bcmRun_render_append hwf]
    congr 1
    rw [Nat.zero_add]
    have h1 : bcmRun .norm (escChar :: '[' :: ps) ((renderToks ts).length)
        = bcmRun .inSeq ps ((renderToks ts).length + 1 + 1) := by
      simp [bcmRun]
    rw [h1, bcmRun_inSeq_allParams hps]
    congr 1
    omega

/-- Witness for C9's quantified conjuncts at concrete inputs. -/
theorem C9_mapper_total_witness :
    1 ≤ (buildCharMap ['a', escChar]).length ∧
    buildCharMap (renderToks [Tok.plain 'a'] ++ escChar :: '[' :: ['3', '1'])
      = plainOffsets [Tok.plain 'a'] 0 ++ [(renderToks [Tok.plain 'a']).length + (2 + 2)] :=
  ⟨C9_mapper_total_on_degenerate_input.1 ['a', escChar],
    C9_mapper_total_on_degenerate_input.2.2 [Tok.plain 'a'] (by decide)
      ['3', '1'] (by decide)⟩

/-! ## Highlight injection (`injectBgHighlights`) -/

/-- The loop body of `injectBgHighlights` in `internal/tui/styles.go`.
Each element of `pairs` is a plain-text range `(start, end)` together with
its absolute match index (`ranges[k]` and `absIdxs[k]` in the Go code,
paired since the code indexes them in lockstep).  `prev` is the last written
byte position.  A range whose start is at or past the last char-map entry is
skipped (`start >= len(charMap)-1`, written `s + 1 ≥ cm.length` which agrees
for every length including 0); an over-long end is clamped to the sentinel;
a range whose mapped byte start lies before `prev` is skipped. -/
def injectGo (line : List Char) (cm : List Nat) (cur : Nat) :
    List ((Nat × Nat) × Nat) → Nat → List Char
  | [], prev => line.drop prev
  | ((s, e), a) :: rest, prev =>
    if s + 1 ≥ cm.length then injectGo line cm cur rest prev
    else if cm.getD s 0 < prev then injectGo line cm cur rest prev
    else
      (line.drop prev).take (cm.getD s 0 - prev)
        ++ ((if a == cur then [escChar, '[', '4', '2', 'm']
            else [escChar, '[', '4', '3', 'm'])
          ++ ((line.drop (cm.getD s 0)).take
              (cm.getD (if e ≥ cm.length then cm.length - 1 else e) 0 - cm.getD s 0)
            ++ ([escChar, '[', '4', '9', 'm']
              ++ injectGo line cm cur rest
                (cm.getD (if e ≥ cm.length then cm.length - 1 else e) 0))))

/-- `injectBgHighlights` of `internal/tui/styles.go`. -/
def injectBgHighlights (coloredLine : List Char) (ranges : List (Nat × Nat))
    (absIdxs : List Nat) (currentIdx : Nat) : List Char :=
  if ranges.isEmpty then coloredLine
  else injectGo coloredLine (buildCharMap coloredLine) currentIdx
    (ranges.zip absIdxs) 0

/-- Modelled from the spec's wording of highlight injection: walk the
matches left to right, copy the decorated text between matches verbatim,
wrap each matched decorated span with a background start/reset pair — with
no skipping or clamping. -/
def wrapSpec (line : List Char) (cm : List Nat) (cur : Nat) :
    List ((Nat × Nat) × Nat) → Nat → List Char
  | [], prev => line.drop prev
  | ((s, e), a) :: rest, prev =>
    (line.drop prev).take (cm.getD s 0 - prev)
      ++ ((if a == cur then [escChar, '[', '4', '2', 'm']
          else [escChar, '[', '4', '3', 'm'])
        ++ ((line.drop (cm.getD s 0)).take (cm.getD e 0 - cm.getD s 0)
          ++ ([escChar, '[', '4', '9', 'm']
            ++ wrapSpec line cm cur rest (cm.getD e 0))))

/-- Well-behaved match ranges over a plain length `n`: in increasing order,
in bounds, and non-overlapping (each range starts at or after `lo`, which is
threaded as the previous range's end). -/
def RangesOK (n : Nat) : List ((Nat × Nat) × Nat) → Nat → Prop
  | [], _ => True
  | ((s, e), _) :: rest, lo => lo ≤ s ∧ s < n ∧ s ≤ e ∧ e ≤ n ∧ RangesOK n rest e

theorem buildCharMap_length {ts : List Tok} (hwf : WfToks ts) :
    (buildCharMap (renderToks ts)).length = (plainOf ts).length + 1 := by
  rw [buildCharMap_render hwf]
  simp [length_plainOffsets]

theorem buildCharMap_getD {ts : List Tok} (hwf : WfToks ts) {k : Nat}
    (hk : k ≤ (plainOf ts).length) :
    (buildCharMap (renderToks ts)).getD k 0 = plainOffset ts k := by
  rw [buildCharMap_render hwf]
  have := getD_plainOffsets hk 0
  simpa using this

theorem strip_drop_suffix {ts : List Tok} (hwf : WfToks ts) {p prev : Nat}
    (hprev : prev = plainOffset ts p ∨ (p = 0 ∧ prev = 0)) :
    stripRun .norm ((renderToks ts).drop prev) = (plainOf ts).drop p := by
  rcases hprev with rfl | ⟨rfl, rfl⟩
  · rw [renderToks_drop_plainOffset]
    have h := stripANSI_render (wfToks_afterPlain hwf p)
    unfold stripANSI at h
    rw [h, plainOf_afterPlain]
  · simp only [List.drop_zero]
    have h := stripANSI_render hwf
    unfold stripANSI at h
    rw [h]

theorem strip_slice_append {ts : List Tok} (hwf : WfToks ts) {p s prev : Nat}
    (hps : p ≤ s) (hs : s ≤ (plainOf ts).length)
    (hprev : prev = plainOffset ts p ∨ (p = 0 ∧ prev = 0)) (v : List Char) :
    stripRun .norm (((renderToks ts).drop prev).take (plainOffset ts s - prev) ++ v)
      = ((plainOf ts).drop p).take (s - p) ++ stripRun .norm v := by
  rcases hprev with rfl | ⟨rfl, rfl⟩
  · rw [renderToks_drop_plainOffset]
    have hoff : plainOffset ts s - plainOffset ts p
        = plainOffset (afterPlain ts p) (s - p) := by
      rw [plainOffset_afterPlain]
      have h : p + (s - p) = s := by omega
      rw [h]
    rw [hoff, renderToks_take_plainOffset,
      stripANSI_render_append (wfToks_beforePlain (wfToks_afterPlain hwf p) (s - p)),
      plainOf_beforePlain, plainOf_afterPlain]
  · simp only [List.drop_zero, Nat.sub_zero]
    rw [renderToks_take_plainOffset,
      stripANSI_render_append (wfToks_beforePlain hwf s),
      plainOf_beforePlain]

theorem strip_sgr_code (d1 d2 : Char) (h1 : isCSIParam d1 = true)
    (h2 : isCSIParam d2 = true) (v : List Char) :
    stripRun .norm ([escChar, '[', d1, d2, 'm'] ++ v) = stripRun .norm v := by
  have h := @stripRun_norm_csi [d1, d2]
    (by intro c hc; simp at hc; rcases hc with rfl | rfl <;> assumption)
    'm' (by decide) v
  simpa using h

theorem strip_bgCode (b : Bool) (v : List Char) :
    stripRun .norm
        ((if b then [escChar, '[', '4', '2', 'm']
          else [escChar, '[', '4', '3', 'm']) ++ v)
      = stripRun .norm v := by
  cases b
  · simpa using strip_sgr_code '4' '3' (by decide) (by decide) v
  · simpa using strip_sgr_code '4' '2' (by decide) (by decide) v

theorem drop_take_drop {α : Type} (l : List α) {p s e : Nat}
    (h1 : p ≤ s) (h2 : s ≤ e) :
    (l.drop p).take (s - p) ++ ((l.drop s).take (e - s) ++ l.drop e)
      = l.drop p := by
  have he : (l.drop s).drop (e - s) = l.drop e := by
    rw [List.drop_drop]; congr 1; omega
  have hs : (l.drop p).drop (s - p) = l.drop s := by
    rw [List.drop_drop]; congr 1; omega
  rw [← he, List.take_append_drop, ← hs, List.take_append_drop]

/-- Main invariant of highlight injection: from any write position that is a
plain-character byte boundary (or the initial 0), the output of `injectGo`
strips back to the corresponding plain suffix regardless of the ranges. -/
theorem injectGo_strip_render {ts : List Tok} (hwf : WfToks ts) (cur : Nat) :
    ∀ (pairs : List ((Nat × Nat) × Nat)),
      (∀ pr ∈ pairs, pr.1.1 ≤ pr.1.2) →
      ∀ (p prev : Nat), p ≤ (plainOf ts).length →
        (prev = plainOffset ts p ∨ (p = 0 ∧ prev = 0)) →
        stripRun .norm
            (injectGo (renderToks ts) (buildCharMap (renderToks ts)) cur pairs prev)
          = (plainOf ts).drop p := by
  intro pairs
  induction pairs with
  | nil =>
    intro _ p prev hp hprev
    simp only [injectGo]
    exact strip_drop_suffix hwf hprev
  | cons pr rest ih =>
    intro hr p prev hp hprev
    obtain ⟨⟨s, e⟩, a⟩ := pr
    have hse : s ≤ e := hr ((s, e), a) (by simp)
    have hrrest : ∀ x ∈ rest, x.1.1 ≤ x.1.2 := fun x hx => hr x (by simp [hx])
    have hcml := buildCharMap_length hwf
    by_cases h1 : s + 1 ≥ (buildCharMap (renderToks ts)).length
    · simp only [injectGo, if_pos h1]
      exact ih hrrest p prev hp hprev
    · have hscount : s < (plainOf ts).length := by omega
      have hbs : (buildCharMap (renderToks ts)).getD s 0 = plainOffset ts s :=
        buildCharMap_getD hwf (le_of_lt hscount)
      by_cases h2 : (buildCharMap (renderToks ts)).getD s 0 < prev
      · simp only [injectGo, if_neg h1, if_pos h2]
        exact ih hrrest p prev hp hprev
      · simp only [injectGo, if_neg h1, if_neg h2]
        have he2 : (if e ≥ (buildCharMap (renderToks ts)).length
            then (buildCharMap (renderToks ts)).length - 1 else e)
            ≤ (plainOf ts).length := by
          by_cases h : e ≥ (buildCharMap (renderToks ts)).length
          · simp only [if_pos h]; omega
          · simp only [if_neg h]; omega
        have hse2 : s ≤ (if e ≥ (buildCharMap (renderToks ts)).length
            then (buildCharMap (renderToks ts)).length - 1 else e) := by
          by_cases h : e ≥ (buildCharMap (renderToks ts)).length
          · simp only [if_pos h]; omega
          · simp only [if_neg h]; omega
        have hbe : (buildCharMap (renderToks ts)).getD
            (if e ≥ (buildCharMap (renderToks ts)).length
              then (buildCharMap (renderToks ts)).length - 1 else e) 0
            = plainOffset ts (if e ≥ (buildCharMap (renderToks ts)).length
              then (buildCharMap (renderToks ts)).length - 1 else e) :=
          buildCharMap_getD hwf he2
        have hps : p ≤ s := by
          rcases hprev with rfl | ⟨rfl, rfl⟩
          · by_contra hlt
            push_neg at hlt
            have := plainOffset_lt_plainOffset ts hlt hp
            rw [hbs] at h2
            omega
          · omega
        rw [hbs, hbe]
        rw [strip_slice_append hwf hps (le_of_lt hscount) hprev]
        rw [strip_bgCode]
        rw [strip_slice_append hwf hse2 he2 (Or.inl rfl)]
        rw [strip_sgr_code '4' '9' (by decide) (by decide)]
        rw [ih hrrest _ _ he2 (Or.inl rfl)]
        exact drop_take_drop (plainOf ts) hps hse2

/-- On well-behaved (sorted, in-bounds, non-overlapping) ranges no range is
skipped or clamped: `injectGo` coincides with the spec-worded `wrapSpec`. -/
theorem injectGo_eq_wrapSpec {ts : List Tok} (hwf : WfToks ts) (cur : Nat) :
    ∀ (pairs : List ((Nat × Nat) × Nat)) (lo prev : Nat),
      RangesOK (plainOf ts).length pairs lo →
      prev ≤ plainOffset ts lo →
      injectGo (renderToks ts) (buildCharMap (renderToks ts)) cur pairs prev
        = wrapSpec (renderToks ts) (buildCharMap (renderToks ts)) cur pairs prev := by
  intro pairs
  induction pairs with
  | nil => intro lo prev _ _; simp [injectGo, wrapSpec]
  | cons pr rest ih =>
    intro lo prev hok hprev
    obtain ⟨⟨s, e⟩, a⟩ := pr
    obtain ⟨hlos, hsn, hsee, hen, hrest⟩ := hok
    have hcml := buildCharMap_length hwf
    have h1 : ¬ (s + 1 ≥ (buildCharMap (renderToks ts)).length) := by omega
    have hbs : (buildCharMap (renderToks ts)).getD s 0 = plainOffset ts s :=
      buildCharMap_getD hwf (le_of_lt hsn)
    have hbe : (buildCharMap (renderToks ts)).getD e 0 = plainOffset ts e :=
      buildCharMap_getD hwf hen
    have h2 : ¬ ((buildCharMap (renderToks ts)).getD s 0 < prev) := by
      rw [hbs]
      have h3 := plainOffset_le_plainOffset ts hlos
      omega
    have he2 : (if e ≥ (buildCharMap (renderToks ts)).length
        then (buildCharMap (renderToks ts)).length - 1 else e) = e := by
      rw [if_neg]
      omega
    simp only [injectGo, wrapSpec, if_neg h1, if_neg h2, he2]
    rw [hbe]
    rw [ih e (plainOffset ts e) hrest le_rfl]

/-- C2.  Highlight injection never corrupts content: for every decorated
line (plain characters interleaved with well-formed CSI escape sequences),
every list of plain-text `[start, end)` ranges paired with their absolute
match indices, and every current-match index, the output of
`injectBgHighlights` with all ANSI escape sequences stripped equals the
input line with all ANSI escape sequences stripped (ranges whose mapped
byte start lies before the previously emitted byte end are skipped by the
algorithm, which is what protects the content); and on well-behaved
(sorted, in-bounds, non-overlapping) ranges nothing is skipped: the output
is exactly the decorated text between matches copied verbatim with each
matched decorated span wrapped in a background start code and a background
reset code (`wrapSpec`). -/
theorem C2_highlight_injection (ts : List Tok) (hwf : WfToks ts)
    (ranges : List (Nat × Nat)) (absIdxs : List Nat) (cur : Nat)
    (hlen : ranges.length = absIdxs.length)
    (hr : ∀ r ∈ ranges, r.1 ≤ r.2) :
    stripANSI (injectBgHighlights (renderToks ts) ranges absIdxs cur)
      = stripANSI (renderToks ts) ∧
    (RangesOK (plainOf ts).length (ranges.zip absIdxs) 0 →
      injectBgHighlights (renderToks ts) ranges absIdxs cur
        = wrapSpec (renderToks ts) (buildCharMap (renderToks ts)) cur
            (ranges.zip absIdxs) 0) := by
  constructor
  · unfold injectBgHighlights
    by_cases hemp : ranges.isEmpty
    · simp [hemp]
    · simp only [hemp, Bool.false_eq_true, if_false]
      have hpairs : ∀ pr ∈ ranges.zip absIdxs, pr.1.1 ≤ pr.1.2 := by
        intro pr hpr
        exact hr pr.1 (List.of_mem_zip hpr).1
      have h1 := injectGo_strip_render hwf cur (ranges.zip absIdxs) hpairs 0 0
        (by omega) (Or.inr ⟨rfl, rfl⟩)
      unfold stripANSI
      rw [h1]
      have h2 := stripANSI_render hwf
      unfold stripANSI at h2
      rw [h2]
      simp
  · intro hok
    unfold injectBgHighlights
    by_cases hemp : ranges.isEmpty
    · have hnil : ranges = [] := by simpa [List.isEmpty_iff] using hemp
      subst hnil
      simp [wrapSpec, List.zip_nil_left]
    · simp only [hemp, Bool.false_eq_true, if_false]
      exact injectGo_eq_wrapSpec hwf cur (ranges.zip absIdxs) 0 0 hok (by omega)

/-- Witness for C2: the decorated line `"a" ++ ESC [31m ++ "b"`, one range
`[0, 2)` with absolute index `0`, current index `0`. -/
theorem C2_highlight_injection_witness :
    (WfToks [Tok.plain 'a', Tok.csi ['3', '1'] 'm', Tok.plain 'b']
      ∧ ([((0 : Nat), (2 : Nat))].length = [(0 : Nat)].length)
      ∧ (∀ r ∈ [((0 : Nat), (2 : Nat))], r.1 ≤ r.2)) ∧
    (stripANSI (injectBgHighlights
        (renderToks [Tok.plain 'a', Tok.csi ['3', '1'] 'm', Tok.plain 'b'])
        [(0, 2)] [0] 0)
      = stripANSI (renderToks [Tok.plain 'a', Tok.csi ['3', '1'] 'm', Tok.plain 'b']) ∧
    (RangesOK (plainOf [Tok.plain 'a', Tok.csi ['3', '1'] 'm', Tok.plain 'b']).length
        ([((0 : Nat), (2 : Nat))].zip [(0 : Nat)]) 0 →
      injectBgHighlights
          (renderToks [Tok.plain 'a', Tok.csi ['3', '1'] 'm', Tok.plain 'b'])
          [(0, 2)] [0] 0
        = wrapSpec (renderToks [Tok.plain 'a', Tok.csi ['3', '1'] 'm', Tok.plain 'b'])
            (buildCharMap (renderToks [Tok.plain 'a', Tok.csi ['3', '1'] 'm', Tok.plain 'b']))
            0 ([((0 : Nat), (2 : Nat))].zip [(0 : Nat)]) 0)) :=
  ⟨⟨by decide, by decide, by decide⟩,
    C2_highlight_injection [Tok.plain 'a', Tok.csi ['3', '1'] 'm', Tok.plain 'b']
      (by decide) [(0, 2)] [0] 0 (by decide) (by decide)⟩

/-! ## Search (`rebuildSearch` of `internal/tui/styles.go`)

`rebuildSearch` splits the detail content on newlines, strips ANSI escapes
from each line, lowercases it, and repeatedly applies `strings.Index` for
the lowercased query, resuming each scan at the previous match's end.  The
inner loop `idx := strings.Index(lplain[pos:], lower)` is embedded as a
recursion on the remaining suffix `lplain[pos:]` (with
`lplain[pos:][k:] = lplain[pos+k:]`). -/

def findIdx : List Char → List Char → Option Nat
  | hay, needle =>
    if needle.isPrefixOf hay then some 0
    else
      match hay with
      | [] => none
      | _ :: rest => (findIdx rest needle).map (· + 1)

theorem findIdx_some_le {hay needle : List Char} {i : Nat}
    (h : findIdx hay needle = some i) : i + needle.length ≤ hay.length := by
  induction hay generalizing i with
  | nil =>
    unfold findIdx at h
    by_cases hp : needle.isPrefixOf ([] : List Char)
    · simp only [hp, if_true] at h
      cases h
      have := List.IsPrefix.length_le (List.isPrefixOf_iff_prefix.mp hp)
      simpa using this
    · simp [hp] at h
  | cons c rest ih =>
    unfold findIdx at h
    by_cases hp : needle.isPrefixOf (c :: rest)
    · simp only [hp, if_true] at h
      cases h
      have := List.IsPrefix.length_le (List.isPrefixOf_iff_prefix.mp hp)
      simpa using this
    · simp only [hp, if_false] at h
      cases hfi : findIdx rest needle with
      | none => rw [hfi] at h; simp at h
      | some j =>
        rw [hfi] at h
        simp only [Bool.false_eq_true, if_false, Option.map_some', Option.some.injEq] at h
        subst h
        have := ih hfi
        simp only [List.length_cons]
        omega

theorem findIdx_some_isPrefixOf {hay needle : List Char} {i : Nat}
    (h : findIdx hay needle = some i) :
    needle.isPrefixOf (hay.drop i) = true := by
  induction hay generalizing i with
  | nil =>
    unfold findIdx at h
    by_cases hp : needle.isPrefixOf ([] : List Char)
    · simp only [hp, if_true] at h; cases h; simpa using hp
    · simp [hp] at h
  | cons c rest ih =>
    unfold findIdx at h
    by_cases hp : needle.isPrefixOf (c :: rest)
    · simp only [hp, if_true] at h; cases h; simpa using hp
    · simp only [hp, if_false] at h
      cases hfi : findIdx rest needle with
      | none => rw [hfi] at h; simp at h
      | some j =>
        rw [hfi] at h
        simp only [Bool.false_eq_true, if_false, Option.map_some', Option.some.injEq] at h
        subst h
        simpa using ih hfi

def scanLineAux (n : Char) (ns : List Char) : List Char → Nat → List (Nat × Nat)
  | suffix, pos =>
    match h : findIdx suffix (n :: ns) with
    | none => []
    | some idx =>
      (pos + idx, pos + idx + (ns.length + 1)) ::
        scanLineAux n ns (suffix.drop (idx + (ns.length + 1)))
          (pos + idx + (ns.length + 1))
termination_by suffix _ => suffix.length
decreasing_by
  simp_wf
  have h1 := findIdx_some_le h
  simp only [List.length_cons] at h1
  omega

theorem scanLineAux_props (n : Char) (ns : List Char) :
    ∀ (suffix : List Char) (pos : Nat),
      (∀ r ∈ scanLineAux n ns suffix pos,
        pos ≤ r.1 ∧ r.2 = r.1 + (ns.length + 1) ∧
        r.2 ≤ pos + suffix.length ∧
        (n :: ns).isPrefixOf (suffix.drop (r.1 - pos)) = true) ∧
      List.Pairwise (fun r1 r2 => r1.2 ≤ r2.1) (scanLineAux n ns suffix pos) := by
  intro suffix pos
  induction suffix, pos using scanLineAux.induct n ns with
  | case1 suffix pos h =>
    rw [scanLineAux, h]
    simp
  | case2 suffix pos idx h ih =>
    rw [scanLineAux, h]
    obtain ⟨ihAll, ihPw⟩ := ih
    have hle := findIdx_some_le h
    simp only [List.length_cons] at hle
    constructor
    · intro r hr
      rcases List.mem_cons.mp hr with rfl | hr2
      · refine ⟨by omega, rfl, by omega, ?_⟩
        have hpre := findIdx_some_isPrefixOf h
        have hidx : pos + idx - pos = idx := by omega
        rw [hidx]
        exact hpre
      · obtain ⟨h1, h2, h3, h4⟩ := ihAll r hr2
        have hdl : (suffix.drop (idx + (ns.length + 1))).length
            = suffix.length - (idx + (ns.length + 1)) := by
          simp [List.length_drop]
        refine ⟨by omega, h2, by omega, ?_⟩
        rw [List.drop_drop] at h4
        have harith : idx + (ns.length + 1) + (r.1 - (pos + idx + (ns.length + 1)))
            = r.1 - pos := by omega
        rw [harith] at h4
        exact h4
    · constructor
      · intro r hr
        have := (ihAll r hr).1
        omega
      · exact ihPw

/-- One match of the detail search (`searchMatch` in the Go source; the
field `end` is named `endPos` since `end` is reserved). -/
structure SearchMatch where
  line : Nat
  startPos : Nat
  endPos : Nat
deriving DecidableEq, Repr

/-- `strings.Split(source, "\n")` of the Go standard library. -/
def splitLines : List Char → List (List Char)
  | [] => [[]]
  | c :: rest =>
    if c = '\n' then [] :: splitLines rest
    else
      match splitLines rest with
      | [] => [[c]]
      | l :: ls => (c :: l) :: ls

/-- The outer per-line loop of `rebuildSearch`: scan each line's
escape-stripped lowercased form and record matches with their line index. -/
def searchAllLines (n : Char) (ns : List Char) : List (List Char) → Nat → List SearchMatch
  | [], _ => []
  | line :: rest, li =>
    ((scanLineAux n ns ((stripANSI line).map Char.toLower) 0).map
      (fun r => ⟨li, r.1, r.2⟩))
      ++ searchAllLines n ns rest (li + 1)

/-- The match list computed by `rebuildSearch` for content and query (the
empty-query case returns no matches, mirroring the guard at the top of
`rebuildSearch`). -/
def rebuildSearchMatches (content q : List Char) : List SearchMatch :=
  match q.map Char.toLower with
  | [] => []
  | n :: ns => searchAllLines n ns (splitLines content) 0

/-- Document order between two matches: an earlier line, or the same line
with the earlier match ending at or before the later match's start
(non-overlap). -/
def docBefore (m1 m2 : SearchMatch) : Prop :=
  m1.line < m2.line ∨ (m1.line = m2.line ∧ m1.endPos ≤ m2.startPos)

instance : DecidableRel docBefore := fun m1 m2 =>
  inferInstanceAs (Decidable (_ ∨ _))

theorem searchAllLines_facts (n : Char) (ns : List Char) :
    ∀ (lines : List (List Char)) (li : Nat),
      (∀ m ∈ searchAllLines n ns lines li, li ≤ m.line
        ∧ m.line - li < lines.length
        ∧ m.endPos = m.startPos + (ns.length + 1)
        ∧ (n :: ns).isPrefixOf
            (((stripANSI (lines.getD (m.line - li) [])).map Char.toLower).drop
              m.startPos) = true
        ∧ m.endPos ≤ (stripANSI (lines.getD (m.line - li) [])).length)
      ∧ List.Pairwise docBefore (searchAllLines n ns lines li) := by
  intro lines
  induction lines with
  | nil => intro li; simp [searchAllLines]
  | cons line rest ih =>
    intro li
    simp only [searchAllLines]
    constructor
    · intro m hm
      rcases List.mem_append.mp hm with hm1 | hm2
      · obtain ⟨r, hr, rfl⟩ := List.mem_map.mp hm1
        obtain ⟨h1, h2, h3, h4⟩ :=
          (scanLineAux_props n ns ((stripANSI line).map Char.toLower) 0).1 r hr
        refine ⟨le_rfl, by simp, h2, ?_, ?_⟩
        · simpa using h4
        · simpa using h3
      · obtain ⟨g1, g2, g3, g4, g5⟩ := (ih (li + 1)).1 m hm2
        have hline : m.line - li = (m.line - (li + 1)) + 1 := by omega
        refine ⟨by omega, ?_, g3, ?_, ?_⟩
        · rw [hline]
          simp only [List.length_cons]
          omega
        · rw [hline]
          simpa using g4
        · rw [hline]
          simpa using g5
    · rw [List.pairwise_append]
      refine ⟨?_, (ih (li + 1)).2, ?_⟩
      · rw [List.pairwise_map]
        have hpw := (scanLineAux_props n ns ((stripANSI line).map Char.toLower) 0).2
        refine hpw.imp ?_
        intro r1 r2 h12
        right
        exact ⟨rfl, h12⟩
      · intro a ha b hb
        obtain ⟨r, hr, rfl⟩ := List.mem_map.mp ha
        have hbli := ((ih (li + 1)).1 b hb).1
        left
        simp only []
        omega

/-- Concrete detail content with `"Job"` twice and `"JOB"` once. -/
def jobContent : List Char :=
  ['J', 'o', 'b', '\n', 'J', 'O', 'B', ' ', 'J', 'o', 'b']

theorem scanLine_nil_eval (pos : Nat) : scanLineAux 'j' ['o', 'b'] [] pos = [] := by
  rw [scanLineAux]
  rfl

theorem scanLine_job_eval : scanLineAux 'j' ['o', 'b'] ['j', 'o', 'b'] 0 = [(0, 3)] := by
  rw [scanLineAux]
  show (0, 3) :: scanLineAux 'j' ['o', 'b'] [] 3 = [(0, 3)]
  rw [scanLine_nil_eval]

theorem scanLine_jobjob_eval :
    scanLineAux 'j' ['o', 'b'] ['j', 'o', 'b', ' ', 'j', 'o', 'b'] 0
      = [(0, 3), (4, 7)] := by
  rw [scanLineAux]
  show (0, 3) :: scanLineAux 'j' ['o', 'b'] [' ', 'j', 'o', 'b'] 3 = [(0, 3), (4, 7)]
  rw [scanLineAux]
  show (0, 3) :: (4, 7) :: scanLineAux 'j' ['o', 'b'] [] 7 = [(0, 3), (4, 7)]
  rw [scanLine_nil_eval]

theorem rebuildSearch_job_eval :
    rebuildSearchMatches jobContent ['j', 'o', 'b']
      = [⟨0, 0, 3⟩, ⟨1, 0, 3⟩, ⟨1, 4, 7⟩] := by
  show searchAllLines 'j' ['o', 'b'] (splitLines jobContent) 0 = _
  show (scanLineAux 'j' ['o', 'b'] ['j', 'o', 'b'] 0).map
        (fun r => SearchMatch.mk 0 r.1 r.2)
      ++ ((scanLineAux 'j' ['o', 'b'] ['j', 'o', 'b', ' ', 'j', 'o', 'b'] 0).map
        (fun r => SearchMatch.mk 1 r.1 r.2)
      ++ searchAllLines 'j' ['o', 'b'] [] 2) = _
  rw [scanLine_job_eval, scanLine_jobjob_eval]
  rfl

/-- C3.  Search match production: matches are computed line by line against
the escape-stripped lowercased form of each line (each reported match is an
occurrence of the lowercased query inside its own line, so matches never
span line boundaries), the scan resumes at each match's end so no two
matches on the same line overlap, matches are listed in document order, and
content containing `"Job"` twice and `"JOB"` once searched with query
`"job"` yields exactly 3 matches in document order. -/
theorem C3_search_match_production (content q : List Char) (hq : q ≠ []) :
    (List.Pairwise docBefore (rebuildSearchMatches content q)
      ∧ ∀ m ∈ rebuildSearchMatches content q,
          m.endPos = m.startPos + q.length
          ∧ m.line < (splitLines content).length
          ∧ (q.map Char.toLower).isPrefixOf
              (((stripANSI ((splitLines content).getD m.line [])).map
                Char.toLower).drop m.startPos) = true
          ∧ m.endPos ≤ (stripANSI ((splitLines content).getD m.line [])).length)
    ∧ rebuildSearchMatches jobContent ['j', 'o', 'b']
        = [⟨0, 0, 3⟩, ⟨1, 0, 3⟩, ⟨1, 4, 7⟩]
    ∧ (rebuildSearchMatches jobContent ['j', 'o', 'b']).length = 3 := by
  refine ⟨?_, rebuildSearch_job_eval, by rw [rebuildSearch_job_eval]; rfl⟩
  cases q with
  | nil => exact absurd rfl hq
  | cons c cs =>
    simp only [rebuildSearchMatches, List.map_cons]
    have hfacts := searchAllLines_facts (Char.toLower c) (cs.map Char.toLower)
      (splitLines content) 0
    refine ⟨hfacts.2, ?_⟩
    intro m hm
    obtain ⟨g1, g2, g3, g4, g5⟩ := hfacts.1 m hm
    simp only [Nat.sub_zero] at g2 g4 g5
    refine ⟨?_, g2, g4, g5⟩
    rw [g3]
    simp [List.length_map]

/-- Witness for C3 at the concrete job content and query. -/
theorem C3_search_match_production_witness :
    (['j', 'o', 'b'] : List Char) ≠ []
      ∧ (List.Pairwise docBefore (rebuildSearchMatches jobContent ['j', 'o', 'b'])
      ∧ ∀ m ∈ rebuildSearchMatches jobContent ['j', 'o', 'b'],
          m.endPos = m.startPos + (['j', 'o', 'b'] : List Char).length
          ∧ m.line < (splitLines jobContent).length
          ∧ ((['j', 'o', 'b'] : List Char).map Char.toLower).isPrefixOf
              (((stripANSI ((splitLines jobContent).getD m.line [])).map
                Char.toLower).drop m.startPos) = true
          ∧ m.endPos ≤ (stripANSI ((splitLines jobContent).getD m.line [])).length)
    ∧ rebuildSearchMatches jobContent ['j', 'o', 'b']
        = [⟨0, 0, 3⟩, ⟨1, 0, 3⟩, ⟨1, 4, 7⟩]
    ∧ (rebuildSearchMatches jobContent ['j', 'o', 'b']).length = 3 :=
  ⟨by decide, C3_search_match_production jobContent ['j', 'o', 'b'] (by decide)⟩

/-! ## The application state machine (`Model` and `Update`)

The Bubble Tea model of `internal/tui/styles.go`.  Text inputs are modelled
by their value (a `List Char`; a character key appends, other keys leave the
value unchanged — cursor position and blinking are presentation state with
no effect on the logic verified here).  The viewport is modelled by its
dimensions, scroll offset and content; its own default key/mouse handling
(scrolling inside the pager) does not touch any Model field and is modelled
as a no-op.  The backend client handle is modelled by its presence
(`client : Bool` for `m.client != nil`); commands are modelled as
descriptors (`Cmd`) carrying the data captured at issue time.
`renderDetail` (pure pretty-printer of a fetched record) is abstracted:
`Msg.detailLoaded` carries its already-rendered string. -/

inductive Screen where
  | connect
  | main
deriving DecidableEq, Repr

inductive Panel where
  | consumers
  | manifests
  | detail
deriving DecidableEq, Repr

/-- `detailViewMode` (an integer enum in the source). -/
inductive DVMode where
  | formatted
  | json
  | yaml
deriving DecidableEq, Repr

def DVMode.toNat : DVMode → Nat
  | .formatted => 0
  | .json => 1
  | .yaml => 2

def dvModeOfNat : Nat → DVMode
  | 0 => .formatted
  | 1 => .json
  | _ => .yaml

/-- `detailViewMode.next`: `(m + 1) % 3`. -/
def DVMode.next (m : DVMode) : DVMode := dvModeOfNat ((m.toNat + 1) % 3)

/-- `maestro.ConsumerInfo` (the fields the dashboard reads). -/
structure ConsumerInfo where
  id : List Char
  name : List Char
deriving DecidableEq, Repr

/-- `maestro.ResourceBundleSummary` (the fields the dashboard reads). -/
structure ResourceBundleSummary where
  id : List Char
  name : List Char
  consumerName : List Char
deriving DecidableEq, Repr

structure Viewport where
  vpWidth : Nat
  vpHeight : Nat
  yOffset : Nat
  content : List Char
deriving DecidableEq, Repr

def Viewport.setContent (vp : Viewport) (c : List Char) : Viewport :=
  { vp with content := c }

def Viewport.gotoTop (vp : Viewport) : Viewport := { vp with yOffset := 0 }

def Viewport.setYOffset (vp : Viewport) (y : Nat) : Viewport :=
  { vp with yOffset := y }

def Viewport.scrollUp (vp : Viewport) (n : Nat) : Viewport :=
  { vp with yOffset := vp.yOffset - n }

def Viewport.scrollDown (vp : Viewport) (n : Nat) : Viewport :=
  { vp with yOffset := vp.yOffset + n }

/-- Asynchronous command descriptors (`tea.Cmd` values issued by `Update`;
spinner/watch ticks and the network commands, with the data each closure
captures at issue time). -/
inductive Cmd where
  | spinnerTickCmd
  | watchTickCmd
  | quit
  | connectNet (endpoint token : List Char) (insecure : Bool)
  | reloadConsumersCmd
  | loadManifestsCmd (consumerName : List Char)
  | loadDetailCmd (mw : ResourceBundleSummary)
  | createConsumerNet (name : List Char)
  | deleteConsumerNet (id : List Char)
  | deleteManifestNet (id : List Char)
  | clipboardWrite (content : List Char)
deriving DecidableEq, Repr

/-- Keyboard events (`tea.KeyMsg`), restricted to the keys the dashboard
routes: printable characters and the special keys it matches on. -/
inductive Key where
  | char (c : Char)
  | enter
  | escape
  | tab
  | shiftTab
  | space
  | up
  | down
  | ctrlC
deriving DecidableEq, Repr

inductive MouseButton where
  | left
  | wheelUp
  | wheelDown
  | other
deriving DecidableEq, Repr

inductive MouseAction where
  | press
  | release
  | motion
deriving DecidableEq, Repr

/-- Inbound events (`tea.Msg`): window size, timer ticks, command
completions, keyboard and mouse. -/
inductive Msg where
  | windowSize (w h : Nat)
  | spinnerTickEv
  | errEvent (text : List Char)
  | connected (consumers : List ConsumerInfo)
  | consumersLoaded (consumers : List ConsumerInfo)
  | manifestsLoaded (manifests : List ResourceBundleSummary)
  | detailLoaded (formatted jsonData yamlData rawJSON rawYAML : List Char)
  | consumerCreated (name : List Char)
  | consumerDeleted
  | manifestDeleted
  | clipboardDone (errText : Option (List Char))
  | watchTickEv
  | keyMsg (k : Key)
  | mouseMsg (button : MouseButton) (action : MouseAction) (x y : Nat)
deriving DecidableEq, Repr

/-- The Bubble Tea application model (`Model` in the source, one field per
Go field; text inputs are their values, `errMsg2` keeps its source name). -/
structure Model where
  width : Nat
  height : Nat
  screen : Screen
  connectEndpoint : List Char
  connectToken : List Char
  connectInsecure : Bool
  connectFocusIdx : Nat
  connectLoading : Bool
  client : Bool
  focused : Panel
  consumers : List ConsumerInfo
  consumerCursor : Nat
  consumerOffset : Nat
  manifests : List ResourceBundleSummary
  manifestCursor : Nat
  manifestOffset : Nat
  filterInput : List Char
  filtering : Bool
  filterText : List Char
  viewport : Viewport
  detailContent : List Char
  detailFormatted : List Char
  detailJSON : List Char
  detailYAML : List Char
  detailRawJSON : List Char
  detailRawYAML : List Char
  detailViewMode : DVMode
  searchInput : List Char
  searching : Bool
  searchText : List Char
  searchMatches : List SearchMatch
  searchCurrent : Nat
  watching : Bool
  showCreateConsumer : Bool
  createInput : List Char
  showConfirm : Bool
  confirmKind : List Char
  confirmID : List Char
  confirmName : List Char
  confirmMsg : List Char
  loading : Bool
  statusMsg : List Char
  errMsg2 : List Char
  spinnerIdx : Nat
deriving DecidableEq, Repr

/-- `New(config)`: the initial model on the connect screen. -/
def newModel (endpoint token : List Char) : Model where
  width := 0
  height := 0
  screen := .connect
  connectEndpoint := endpoint
  connectToken := token
  connectInsecure := false
  connectFocusIdx := 0
  connectLoading := false
  client := false
  focused := .consumers
  consumers := []
  consumerCursor := 0
  consumerOffset := 0
  manifests := []
  manifestCursor := 0
  manifestOffset := 0
  filterInput := []
  filtering := false
  filterText := []
  viewport := ⟨60, 20, 0, []⟩
  detailContent := []
  detailFormatted := []
  detailJSON := []
  detailYAML := []
  detailRawJSON := []
  detailRawYAML := []
  detailViewMode := .formatted
  searchInput := []
  searching := false
  searchText := []
  searchMatches := []
  searchCurrent := 0
  watching := false
  showCreateConsumer := false
  createInput := []
  showConfirm := false
  confirmKind := []
  confirmID := []
  confirmName := []
  confirmMsg := []
  loading := false
  statusMsg := []
  errMsg2 := []
  spinnerIdx := 0

/-- `strings.Contains(strings.ToLower(hay), needle)` (the needle is already
lowercased at the call sites). -/
def containsSub (hay needle : List Char) : Bool := (findIdx hay needle).isSome

def Model.filteredManifests (m : Model) : List ResourceBundleSummary :=
  if m.filterText = [] then m.manifests
  else m.manifests.filter
    (fun mw => containsSub (mw.name.map Char.toLower) (m.filterText.map Char.toLower))

def Model.selectedManifest (m : Model) : Option ResourceBundleSummary :=
  if m.filteredManifests.length = 0 ∨ m.manifestCursor ≥ m.filteredManifests.length
  then none
  else m.filteredManifests.get? m.manifestCursor

def Model.activeDetailContent (m : Model) : List Char :=
  match m.detailViewMode with
  | .json => if m.detailJSON ≠ [] then m.detailJSON else m.detailFormatted
  | .yaml => if m.detailYAML ≠ [] then m.detailYAML else m.detailFormatted
  | .formatted => m.detailFormatted

/-- Join lines back with newlines (`strings.Join(result, "\n")`). -/
def joinLines : List (List Char) → List Char
  | [] => []
  | [l] => l
  | l :: ls => l ++ '\n' :: joinLines ls

/-- `applySearchHighlights`: group matches by line (the per-line order is
the append order of `searchMatches`, i.e. filtering the enumerated list)
and inject background highlights into each line that has matches. -/
def Model.applySearchHighlights (m : Model) : Model :=
  let lines := splitLines m.detailContent
  let rendered := lines.enum.map (fun p =>
    let g := m.searchMatches.enum.filter (fun q => q.2.line = p.1)
    if g.isEmpty then p.2
    else
      injectBgHighlights p.2 (g.map (fun q => (q.2.startPos, q.2.endPos)))
        (g.map (fun q => q.1)) m.searchCurrent)
  { m with viewport := m.viewport.setContent (joinLines rendered) }

/-- `scrollToMatch`: position the match's line a quarter of the way down
the viewport, clamped at 0. -/
def Model.scrollToMatch (m : Model) (idx : Nat) : Model :=
  if idx ≥ m.searchMatches.length then m
  else
    let targetLine := (m.searchMatches.getD idx ⟨0, 0, 0⟩).line
    { m with viewport := m.viewport.setYOffset (targetLine - m.viewport.vpHeight / 4) }

/-- `rebuildSearch` (the full method: recompute matches, clamp the current
index, re-render highlights, scroll to the current match). -/
def Model.rebuildSearch (m : Model) : Model :=
  if m.searchText = [] then
    { m with searchMatches := [], searchCurrent := 0,
             viewport := m.viewport.setContent m.detailContent }
  else
    let ms := rebuildSearchMatches m.detailContent m.searchText
    let cur := if m.searchCurrent ≥ ms.length then 0 else m.searchCurrent
    let m2 := { m with searchMatches := ms, searchCurrent := cur }.applySearchHighlights
    if ms.length > 0 then m2.scrollToMatch cur else m2

def Model.nextSearchMatch (m : Model) : Model :=
  if m.searchMatches.length = 0 then m
  else
    let m1 := { m with searchCurrent := (m.searchCurrent + 1) % m.searchMatches.length }
    m1.applySearchHighlights.scrollToMatch m1.searchCurrent

def Model.prevSearchMatch (m : Model) : Model :=
  if m.searchMatches.length = 0 then m
  else
    let m1 := { m with searchCurrent :=
      (m.searchCurrent + m.searchMatches.length - 1) % m.searchMatches.length }
    m1.applySearchHighlights.scrollToMatch m1.searchCurrent

def Model.clearSearch (m : Model) : Model :=
  { m with searching := false, searchText := [], searchInput := [],
           searchMatches := [], searchCurrent := 0,
           viewport := m.viewport.setContent m.detailContent }

/-- `cycleDetailViewMode`: advance the mode, re-render from the cached
pre-built strings, reapply the search if a query is active. -/
def Model.cycleDetailViewMode (m : Model) : Model :=
  let m1 := { m with detailViewMode := m.detailViewMode.next }
  let m2 := { m1 with detailContent := m1.activeDetailContent }
  if m2.searchText ≠ [] then m2.rebuildSearch
  else { m2 with viewport := (m2.viewport.setContent m2.detailContent).gotoTop }

def Model.clipboardContent (m : Model) : List Char :=
  match m.detailViewMode with
  | .json => if m.detailRawJSON ≠ [] then m.detailRawJSON else stripANSI m.detailFormatted
  | .yaml => if m.detailRawYAML ≠ [] then m.detailRawYAML else stripANSI m.detailFormatted
  | .formatted => stripANSI m.detailFormatted

def Model.copyToClipboardCmd (m : Model) : Cmd :=
  Cmd.clipboardWrite m.clipboardContent

/-- `strings.TrimSpace` on ASCII whitespace. -/
def isSpaceByte (c : Char) : Bool := c = ' ' || c = '\t' || c = '\n' || c = '\r'

def trimSpace (s : List Char) : List Char :=
  ((s.dropWhile isSpaceByte).reverse.dropWhile isSpaceByte).reverse

/-! ### Key handlers -/

/-- `doConnect`: set the loading flag and issue the connect command with the
values captured from the form. -/
def Model.doConnect (m : Model) : Model × List Cmd :=
  ({ m with connectLoading := true, errMsg2 := [] },
   [Cmd.spinnerTickCmd, Cmd.connectNet m.connectEndpoint m.connectToken m.connectInsecure])

def Model.handleConnectKey (m : Model) (k : Key) : Model × List Cmd :=
  match k with
  | .tab => ({ m with connectFocusIdx := (m.connectFocusIdx + 1) % 4 }, [])
  | .shiftTab => ({ m with connectFocusIdx := (m.connectFocusIdx + 3) % 4 }, [])
  | .space =>
    if m.connectFocusIdx = 2 then ({ m with connectInsecure := !m.connectInsecure }, [])
    else (m, [])
  | .enter =>
    if m.connectFocusIdx = 3 ∨ m.connectFocusIdx = 1 then m.doConnect
    else ({ m with connectFocusIdx := (m.connectFocusIdx + 1) % 4 }, [])
  | _ => (m, [])

def Model.handleCreateConsumerKey (m : Model) (k : Key) : Model × List Cmd :=
  match k with
  | .escape => ({ m with showCreateConsumer := false, createInput := [] }, [])
  | .enter =>
    if trimSpace m.createInput = [] then (m, [])
    else
      ({ m with loading := true, errMsg2 := [] },
       [Cmd.spinnerTickCmd, Cmd.createConsumerNet (trimSpace m.createInput)])
  | _ => (m, [])

def Model.handleConfirmKey (m : Model) (k : Key) : Model × List Cmd :=
  if k = .escape then ({ m with showConfirm := false }, [])
  else if k = .char 'y' ∨ k = .char 'Y' then
    let m1 := { m with loading := true, showConfirm := false, errMsg2 := [] }
    if m.confirmKind = "consumer".toList then
      (m1, [Cmd.spinnerTickCmd, Cmd.deleteConsumerNet m.confirmID])
    else if m.confirmKind = "manifest".toList then
      (m1, [Cmd.spinnerTickCmd, Cmd.deleteManifestNet m.confirmID])
    else (m1, [])
  else (m, [])

def Model.handleConsumersKey (m : Model) (k : Key) : Model × List Cmd :=
  if k = .tab then ({ m with focused := .manifests }, [])
  else if k = .shiftTab then ({ m with focused := .detail }, [])
  else if k = .up ∨ k = .char 'k' then
    (if m.consumerCursor > 0 then { m with consumerCursor := m.consumerCursor - 1 }
     else m, [])
  else if k = .down ∨ k = .char 'j' then
    (if m.consumerCursor < m.consumers.length - 1 then
       { m with consumerCursor := m.consumerCursor + 1 }
     else m, [])
  else if k = .enter then
    if m.consumers.length > 0 then
      ({ m with loading := true, manifests := [], detailContent := [],
                viewport := m.viewport.setContent [] },
       [Cmd.spinnerTickCmd,
        Cmd.loadManifestsCmd ((m.consumers.getD m.consumerCursor ⟨[], []⟩).name)])
    else (m, [])
  else if k = .char 'n' then
    ({ m with showCreateConsumer := true, createInput := [] }, [])
  else if k = .char 'd' then
    if m.consumers.length > 0 then
      let c := m.consumers.getD m.consumerCursor ⟨[], []⟩
      ({ m with showConfirm := true, confirmKind := "consumer".toList,
                confirmID := c.id, confirmName := c.name,
                confirmMsg := "Delete consumer \"".toList ++ c.name ++ "\"?".toList },
       [])
    else (m, [])
  else if k = .char 'r' then
    ({ m with loading := true }, [Cmd.spinnerTickCmd, Cmd.reloadConsumersCmd])
  else if k = .char 'y' then (m, [m.copyToClipboardCmd])
  else (m, [])

def Model.handleManifestsKey (m : Model) (k : Key) : Model × List Cmd :=
  if m.filtering then
    match k with
    | .escape =>
      ({ m with filtering := false, filterText := [], filterInput := [],
                manifestCursor := 0, manifestOffset := 0 }, [])
    | .enter => ({ m with filtering := false }, [])
    | _ => (m, [])
  else if k = .tab then ({ m with focused := .detail }, [])
  else if k = .shiftTab then ({ m with focused := .consumers }, [])
  else if k = .up ∨ k = .char 'k' then
    if m.manifestCursor > 0 then
      let m1 := { m with manifestCursor := m.manifestCursor - 1 }
      let m2 :=
        if m1.manifestCursor < m1.manifestOffset then
          { m1 with manifestOffset := m1.manifestCursor }
        else m1
      if m.filteredManifests.length > 0 then
        (m2, [Cmd.loadDetailCmd (m.filteredManifests.getD m2.manifestCursor ⟨[], [], []⟩)])
      else (m2, [])
    else (m, [])
  else if k = .down ∨ k = .char 'j' then
    if m.manifestCursor < m.filteredManifests.length - 1 then
      let m1 := { m with manifestCursor := m.manifestCursor + 1 }
      (m1, [Cmd.loadDetailCmd (m.filteredManifests.getD m1.manifestCursor ⟨[], [], []⟩)])
    else (m, [])
  else if k = .char '/' then ({ m with filtering := true }, [])
  else if k = .char 'w' then
    if !m.watching then
      ({ m with watching := true, statusMsg := "Watch mode ON".toList },
       [Cmd.watchTickCmd])
    else ({ m with watching := false, statusMsg := "Watch mode OFF".toList }, [])
  else if k = .char 'v' then (m.cycleDetailViewMode, [])
  else if k = .char 'd' then
    if m.filteredManifests.length > 0 then
      let mw := m.filteredManifests.getD m.manifestCursor ⟨[], [], []⟩
      ({ m with showConfirm := true, confirmKind := "manifest".toList,
                confirmID := mw.id, confirmName := mw.name,
                confirmMsg := "Delete ManifestWork \"".toList ++ mw.name ++ "\"?".toList },
       [])
    else (m, [])
  else if k = .char 'r' then
    if m.consumers.length > 0 then
      ({ m with loading := true },
       [Cmd.spinnerTickCmd,
        Cmd.loadManifestsCmd ((m.consumers.getD m.consumerCursor ⟨[], []⟩).name)])
    else (m, [])
  else if k = .char 'y' then (m, [m.copyToClipboardCmd])
  else (m, [])

def Model.handleDetailKey (m : Model) (k : Key) : Model × List Cmd :=
  if m.searching then
    match k with
    | .escape => (m.clearSearch, [])
    | .enter => (m.nextSearchMatch, [])
    | _ => (m, [])
  else if k = .tab then ({ m with focused := .consumers }, [])
  else if k = .shiftTab then ({ m with focused := .manifests }, [])
  else if k = .char '/' then ({ m with searching := true }, [])
  else if k = .char 'n' then (m.nextSearchMatch, [])
  else if k = .char 'N' then (m.prevSearchMatch, [])
  else if k = .char 'w' then
    if !m.watching then
      ({ m with watching := true, statusMsg := "Watch mode ON".toList },
       [Cmd.watchTickCmd])
    else ({ m with watching := false, statusMsg := "Watch mode OFF".toList }, [])
  else if k = .char 'v' then (m.cycleDetailViewMode, [])
  else if k = .char 'y' then (m, [m.copyToClipboardCmd])
  else if k = .char 'r' then
    match m.selectedManifest with
    | some sel =>
      ({ m with loading := true }, [Cmd.spinnerTickCmd, Cmd.loadDetailCmd sel])
    | none => (m, [])
  else (m, [])

def Model.handleMainKey (m : Model) (k : Key) : Model × List Cmd :=
  match m.focused with
  | .consumers => m.handleConsumersKey k
  | .manifests => m.handleManifestsKey k
  | .detail => m.handleDetailKey k

/-! ### Mouse handler -/

/-- `mouseClickConsumer`: 2 header rows (border, title) above the list. -/
def Model.mouseClickConsumer (m : Model) (y : Nat) : Model × List Cmd :=
  if y < 2 then ({ m with focused := .consumers }, [])
  else
    let idx := y - 2 + m.consumerOffset
    if idx ≥ m.consumers.length then ({ m with focused := .consumers }, [])
    else
      ({ m with focused := .consumers, consumerCursor := idx, loading := true,
                manifests := [], detailContent := [],
                viewport := m.viewport.setContent [] },
       [Cmd.spinnerTickCmd,
        Cmd.loadManifestsCmd ((m.consumers.getD idx ⟨[], []⟩).name)])

/-- `mouseClickManifest`: 3 header rows (border, title, filter row) above
the list, after the consumer region of height `consumerH`. -/
def Model.mouseClickManifest (m : Model) (y consumerH : Nat) : Model × List Cmd :=
  if y < consumerH + 3 then ({ m with focused := .manifests }, [])
  else
    let idx := y - consumerH - 3 + m.manifestOffset
    if idx ≥ m.filteredManifests.length then ({ m with focused := .manifests }, [])
    else
      ({ m with focused := .manifests, manifestCursor := idx },
       [Cmd.loadDetailCmd (m.filteredManifests.getD idx ⟨[], [], []⟩)])

/-- `handleMouse`.  The left column is `int(0.40 * width)` wide; for every
terminal width this equals `2 * width / 5` (the double closest to 0.40 lies
above 0.40 by less than one part in 10^16, so the floor only changes for
astronomically large widths); similarly for the consumer region height. -/
def Model.handleMouse (m : Model) (b : MouseButton) (a : MouseAction)
    (x y : Nat) : Model × List Cmd :=
  if m.screen ≠ .main then (m, [])
  else
    match b with
    | .left =>
      if a ≠ .press then (m, [])
      else if x < 2 * m.width / 5 then
        if y < 2 * (m.height - 1) / 5 then m.mouseClickConsumer y
        else m.mouseClickManifest y (2 * (m.height - 1) / 5)
      else ({ m with focused := .detail }, [])
    | .wheelUp =>
      if x < 2 * m.width / 5 then
        if y < 2 * (m.height - 1) / 5 then
          (if m.consumerCursor > 0 then { m with consumerCursor := m.consumerCursor - 1 }
           else m, [])
        else
          if m.manifestCursor > 0 then
            let m1 := { m with manifestCursor := m.manifestCursor - 1 }
            match m1.selectedManifest with
            | some sel => (m1, [Cmd.loadDetailCmd sel])
            | none => (m1, [])
          else (m, [])
      else ({ m with viewport := m.viewport.scrollUp 3 }, [])
    | .wheelDown =>
      if x < 2 * m.width / 5 then
        if y < 2 * (m.height - 1) / 5 then
          (if m.consumerCursor < m.consumers.length - 1 then
             { m with consumerCursor := m.consumerCursor + 1 }
           else m, [])
        else
          if m.manifestCursor < m.filteredManifests.length - 1 then
            let m1 := { m with manifestCursor := m.manifestCursor + 1 }
            match m1.selectedManifest with
            | some sel => (m1, [Cmd.loadDetailCmd sel])
            | none => (m1, [])
          else (m, [])
      else ({ m with viewport := m.viewport.scrollDown 3 }, [])
    | .other => (m, [])

/-! ### The Update function -/

/-- A `textinput.Model`'s value after `Update(msg)`: a printable key
appends its character, anything else leaves the value unchanged. -/
def textInputUpdate (v : List Char) : Msg → List Char
  | .keyMsg (.char c) => v ++ [c]
  | .keyMsg .space => v ++ [' ']
  | _ => v

/-- Step 1 of `Update`: forward every message to the active sub-component
(the focused text input, or the viewport — a no-op here) before the model's
own routing runs. -/
def Model.forwardToActive (m : Model) (msg : Msg) : Model :=
  match m.screen with
  | .connect =>
    if m.connectFocusIdx = 0 then
      { m with connectEndpoint := textInputUpdate m.connectEndpoint msg }
    else if m.connectFocusIdx = 1 then
      { m with connectToken := textInputUpdate m.connectToken msg }
    else m
  | .main =>
    if m.showCreateConsumer then
      { m with createInput := textInputUpdate m.createInput msg }
    else if m.filtering then
      if textInputUpdate m.filterInput msg ≠ m.filterText then
        { m with filterInput := textInputUpdate m.filterInput msg,
                 filterText := textInputUpdate m.filterInput msg,
                 manifestCursor := 0, manifestOffset := 0 }
      else
        { m with filterInput := textInputUpdate m.filterInput msg,
                 filterText := textInputUpdate m.filterInput msg }
    else if m.searching then
      if textInputUpdate m.searchInput msg ≠ m.searchText then
        Model.rebuildSearch
          { m with searchInput := textInputUpdate m.searchInput msg,
                   searchText := textInputUpdate m.searchInput msg }
      else
        { m with searchInput := textInputUpdate m.searchInput msg,
                 searchText := textInputUpdate m.searchInput msg }
    else m

/-- `Update` of `internal/tui/styles.go`: one event-processing step,
returning the new model and the list of issued commands. -/
def update (m0 : Model) (msg : Msg) : Model × List Cmd :=
  let m := m0.forwardToActive msg
  match msg with
  | .windowSize w h =>
    let m1 := { m with width := w, height := h }
    let vp1 := { m1.viewport with vpWidth := (w - 2 * w / 5) - 4,
                                  vpHeight := (h - 2) - 4 }
    ({ m1 with viewport := vp1.setContent m1.detailContent }, [])
  | .spinnerTickEv =>
    if m.loading || m.connectLoading then
      ({ m with spinnerIdx := (m.spinnerIdx + 1) % 10 }, [Cmd.spinnerTickCmd])
    else (m, [])
  | .errEvent text =>
    ({ m with loading := false, connectLoading := false, errMsg2 := text,
              statusMsg := [] }, [])
  | .connected cs =>
    let m1 := { m with client := true, consumers := cs, consumerCursor := 0,
                       consumerOffset := 0, screen := .main,
                       connectLoading := false, loading := false,
                       statusMsg := "Connected - ".toList
                         ++ Nat.toDigits 10 cs.length ++ " consumer(s)".toList,
                       errMsg2 := [] }
    match cs with
    | [] => (m1, [])
    | c0 :: _ =>
      (if cs.length = 1 then { m1 with focused := .manifests } else m1,
       [Cmd.loadManifestsCmd c0.name])
  | .consumersLoaded cs =>
    ({ m with consumers := cs, consumerCursor := 0, consumerOffset := 0,
              loading := false,
              statusMsg := Nat.toDigits 10 cs.length ++ " consumer(s)".toList },
     [])
  | .manifestsLoaded ms =>
    let m1 := { m with manifests := ms, manifestCursor := 0, manifestOffset := 0,
                       loading := false }
    match ms with
    | [] => (m1, [])
    | mw0 :: _ => (m1, [Cmd.loadDetailCmd mw0])
  | .detailLoaded f j y rj ry =>
    let m1 := { m with loading := false, detailFormatted := f, detailJSON := j,
                       detailYAML := y, detailRawJSON := rj, detailRawYAML := ry }
    let m2 := { m1 with detailContent := m1.activeDetailContent }
    let m3 :=
      if m2.searchText ≠ [] then m2.rebuildSearch
      else { m2 with viewport := (m2.viewport.setContent m2.detailContent).gotoTop }
    (m3, if m3.watching then [Cmd.watchTickCmd] else [])
  | .watchTickEv =>
    if m.watching && m.client then
      match m.selectedManifest with
      | some sel => (m, [Cmd.loadDetailCmd sel])
      | none => (m, [])
    else (m, [])
  | .consumerCreated name =>
    ({ m with loading := false, showCreateConsumer := false, createInput := [],
              statusMsg := "Consumer \"".toList ++ name ++ "\" created".toList },
     [Cmd.reloadConsumersCmd])
  | .consumerDeleted =>
    ({ m with loading := false, showConfirm := false,
              statusMsg := "Consumer deleted".toList, manifests := [],
              detailContent := [], viewport := m.viewport.setContent [] },
     [Cmd.reloadConsumersCmd])
  | .manifestDeleted =>
    let m1 := { m with loading := false, showConfirm := false,
                       statusMsg := "ManifestWork deleted".toList,
                       detailContent := [], viewport := m.viewport.setContent [] }
    if m1.consumers.length > 0 then
      (m1, [Cmd.loadManifestsCmd ((m1.consumers.getD m1.consumerCursor ⟨[], []⟩).name)])
    else (m1, [])
  | .clipboardDone errText =>
    match errText with
    | some e => ({ m with statusMsg := [], errMsg2 := "clipboard: ".toList ++ e }, [])
    | none => ({ m with errMsg2 := [], statusMsg := "Copied to clipboard!".toList }, [])
  | .mouseMsg b a x y => m.handleMouse b a x y
  | .keyMsg k =>
    if k = .ctrlC then (m, [Cmd.quit])
    else
      match m.screen with
      | .connect => m.handleConnectKey k
      | .main =>
        if m.showCreateConsumer then m.handleCreateConsumerKey k
        else if m.showConfirm then m.handleConfirmKey k
        else m.handleMainKey k

/-! ### Frame lemmas: which fields each helper can modify -/

theorem applySearchHighlights_exists (m : Model) :
    ∃ vp, m.applySearchHighlights = { m with viewport := vp } :=
  ⟨_, rfl⟩

theorem scrollToMatch_exists (m : Model) (i : Nat) :
    ∃ vp, m.scrollToMatch i = { m with viewport := vp } := by
  unfold Model.scrollToMatch
  split_ifs
  · exact ⟨m.viewport, rfl⟩
  · exact ⟨_, rfl⟩

theorem applySearchHighlights_proj (m : Model) :
    m.applySearchHighlights = { m with viewport := m.applySearchHighlights.viewport } :=
  rfl

theorem scrollToMatch_proj (m : Model) (i : Nat) :
    m.scrollToMatch i = { m with viewport := (m.scrollToMatch i).viewport } := by
  obtain ⟨vp, h⟩ := scrollToMatch_exists m i
  rw [h]

theorem rebuildSearch_exists (m : Model) :
    ∃ sm sc vp, m.rebuildSearch
      = { m with searchMatches := sm, searchCurrent := sc, viewport := vp } := by
  simp only [Model.rebuildSearch]
  split_ifs
  all_goals try rw [applySearchHighlights_proj]
  all_goals try rw [scrollToMatch_proj]
  all_goals exact ⟨_, _, _, rfl⟩

theorem rebuildSearch_proj (m : Model) :
    m.rebuildSearch = { m with searchMatches := m.rebuildSearch.searchMatches,
                               searchCurrent := m.rebuildSearch.searchCurrent,
                               viewport := m.rebuildSearch.viewport } := by
  obtain ⟨sm, sc, vp, h⟩ := rebuildSearch_exists m
  rw [h]

theorem nextSearchMatch_exists (m : Model) :
    ∃ sc vp, m.nextSearchMatch = { m with searchCurrent := sc, viewport := vp } := by
  simp only [Model.nextSearchMatch]
  split_ifs
  all_goals try rw [applySearchHighlights_proj]
  all_goals try rw [scrollToMatch_proj]
  · exact ⟨m.searchCurrent, m.viewport, rfl⟩
  · exact ⟨_, _, rfl⟩

theorem prevSearchMatch_exists (m : Model) :
    ∃ sc vp, m.prevSearchMatch = { m with searchCurrent := sc, viewport := vp } := by
  simp only [Model.prevSearchMatch]
  split_ifs
  all_goals try rw [applySearchHighlights_proj]
  all_goals try rw [scrollToMatch_proj]
  · exact ⟨m.searchCurrent, m.viewport, rfl⟩
  · exact ⟨_, _, rfl⟩

theorem cycleDetailViewMode_exists (m : Model) :
    ∃ dv dc sm sc vp, m.cycleDetailViewMode
      = { m with detailViewMode := dv, detailContent := dc,
                 searchMatches := sm, searchCurrent := sc, viewport := vp } := by
  simp only [Model.cycleDetailViewMode]
  split_ifs
  · rw [rebuildSearch_proj]
    exact ⟨_, _, _, _, _, rfl⟩
  · exact ⟨_, _, m.searchMatches, m.searchCurrent, _, rfl⟩

theorem forwardToActive_exists (m : Model) (msg : Msg) :
    ∃ ce ct ci fi ft mc mo si st sm sc vp,
      m.forwardToActive msg
        = { m with connectEndpoint := ce, connectToken := ct, createInput := ci,
                   filterInput := fi, filterText := ft, manifestCursor := mc,
                   manifestOffset := mo, searchInput := si, searchText := st,
                   searchMatches := sm, searchCurrent := sc, viewport := vp } := by
  cases hs : m.screen with
  | connect =>
    simp only [Model.forwardToActive, hs]
    split_ifs
    all_goals
      first
        | exact ⟨_, _, m.createInput, m.filterInput, m.filterText, m.manifestCursor,
            m.manifestOffset, m.searchInput, m.searchText, m.searchMatches,
            m.searchCurrent, m.viewport, rfl⟩
        | (rw [← hs]
           exact ⟨_, _, m.createInput, m.filterInput, m.filterText, m.manifestCursor,
             m.manifestOffset, m.searchInput, m.searchText, m.searchMatches,
             m.searchCurrent, m.viewport, rfl⟩)
  | main =>
    simp only [Model.forwardToActive, hs]
    split_ifs
    all_goals try rw [rebuildSearch_proj]
    all_goals
      first
        | exact ⟨m.connectEndpoint, m.connectToken, _, _, _, _, _, _, _, _, _, _, rfl⟩
        | (rw [← hs]
           exact ⟨m.connectEndpoint, m.connectToken, _, _, _, _, _, _, _, _, _, _, rfl⟩)

/-- The fields `forwardToActive` never modifies. -/
theorem forwardToActive_keeps (m : Model) (msg : Msg) :
    (m.forwardToActive msg).screen = m.screen
    ∧ (m.forwardToActive msg).focused = m.focused
    ∧ (m.forwardToActive msg).filtering = m.filtering
    ∧ (m.forwardToActive msg).searching = m.searching
    ∧ (m.forwardToActive msg).showCreateConsumer = m.showCreateConsumer
    ∧ (m.forwardToActive msg).showConfirm = m.showConfirm
    ∧ (m.forwardToActive msg).watching = m.watching
    ∧ (m.forwardToActive msg).client = m.client
    ∧ (m.forwardToActive msg).consumers = m.consumers
    ∧ (m.forwardToActive msg).consumerCursor = m.consumerCursor
    ∧ (m.forwardToActive msg).manifests = m.manifests
    ∧ (m.forwardToActive msg).loading = m.loading
    ∧ (m.forwardToActive msg).connectLoading = m.connectLoading
    ∧ (m.forwardToActive msg).detailViewMode = m.detailViewMode
    ∧ (m.forwardToActive msg).detailContent = m.detailContent
    ∧ (m.forwardToActive msg).watching = m.watching := by
  obtain ⟨ce, ct, ci, fi, ft, mc, mo, si, st, sm, sc, vp, h⟩ :=
    forwardToActive_exists m msg
  rw [h]
  exact ⟨rfl, rfl, rfl, rfl, rfl, rfl, rfl, rfl, rfl, rfl, rfl, rfl, rfl, rfl,
    rfl, rfl⟩

/-- For a message that no text input reacts to, and in a state where each
text input's value agrees with its mirrored text field (true in every state
the program reaches), the forwarding step is the identity. -/
theorem forwardToActive_eq_self {m : Model} {msg : Msg}
    (htext : ∀ v : List Char, textInputUpdate v msg = v)
    (hf : m.filterText = m.filterInput) (hse : m.searchText = m.searchInput) :
    m.forwardToActive msg = m := by
  cases hs : m.screen with
  | connect =>
    simp only [Model.forwardToActive, hs, htext]
    split_ifs
    all_goals first | rfl | rw [← hs]
  | main =>
    simp only [Model.forwardToActive, hs, htext]
    split_ifs with h1 h2 h3 h4 h5
    all_goals try exact absurd hf.symm h3
    all_goals try exact absurd hse.symm h5
    all_goals try rfl
    all_goals rw [← hs]
    all_goals try rfl
    · have heta : ({ m with filterInput := m.filterInput, filterText := m.filterText } : Model) = m := rfl
      rw [hf] at heta
      exact heta
    · have heta : ({ m with searchInput := m.searchInput, searchText := m.searchText } : Model) = m := rfl
      rw [hse] at heta
      exact heta

/-- C10.  When a connect completion carries a non-empty consumer list, the
model always issues a work-list load for the FIRST consumer — even when
more than one consumer exists — while focus jumps to the work-list panel
only when exactly one consumer exists; with an empty list no load is issued
and focus is unchanged. -/
theorem C10_connected_loads_first_consumer (m : Model) (cs : List ConsumerInfo) :
    (∀ c0 rest, cs = c0 :: rest →
      (update m (.connected cs)).2 = [Cmd.loadManifestsCmd c0.name])
    ∧ (cs.length = 1 → (update m (.connected cs)).1.focused = .manifests)
    ∧ (2 ≤ cs.length → (update m (.connected cs)).1.focused = m.focused)
    ∧ (cs = [] → (update m (.connected cs)).2 = []
        ∧ (update m (.connected cs)).1.focused = m.focused) := by
  have hkeep := (forwardToActive_keeps m (.connected cs)).2.1
  refine ⟨?_, ?_, ?_, ?_⟩
  · rintro c0 rest rfl
    rfl
  · intro hlen
    cases cs with
    | nil => simp at hlen
    | cons c0 rest =>
      simp only [update]
      rw [if_pos hlen]
  · intro hlen2
    cases cs with
    | nil => simp at hlen2
    | cons c0 rest =>
      simp only [update]
      rw [if_neg (by simp only [List.length_cons] at hlen2 ⊢; omega)]
      exact hkeep
  · rintro rfl
    exact ⟨rfl, hkeep⟩

/-- Witness for C10 at a concrete model and a two-consumer list. -/
theorem C10_connected_witness :
    (update (newModel [] []) (.connected [⟨['1'], ['a']⟩, ⟨['2'], ['b']⟩])).2
      = [Cmd.loadManifestsCmd ['a']]
    ∧ (update (newModel [] []) (.connected [⟨['1'], ['a']⟩, ⟨['2'], ['b']⟩])).1.focused
      = (newModel [] []).focused :=
  ⟨(C10_connected_loads_first_consumer (newModel [] []) _).1 ⟨['1'], ['a']⟩ _ rfl,
    (C10_connected_loads_first_consumer (newModel [] []) _).2.2.1 (by decide)⟩

/-! ### C4: watch scheduling discipline -/

def isWatchTick (c : Cmd) : Bool := c == Cmd.watchTickCmd

def isLoadDetail : Cmd → Bool
  | Cmd.loadDetailCmd _ => true
  | _ => false

def countTicks (cs : List Cmd) : Nat := cs.countP isWatchTick

def countFetches (cs : List Cmd) : Nat := cs.countP isLoadDetail

theorem detailLoaded_watching (m : Model) (f j y rj ry : List Char) :
    (update m (.detailLoaded f j y rj ry)).1.watching = m.watching := by
  simp only [update]
  split_ifs
  · rw [rebuildSearch_proj]
    exact (forwardToActive_keeps m _).2.2.2.2.2.2.1
  · exact (forwardToActive_keeps m _).2.2.2.2.2.2.1

theorem detailLoaded_cmds_eq (m : Model) (f j y rj ry : List Char) :
    (update m (.detailLoaded f j y rj ry)).2
      = (if m.watching = true then [Cmd.watchTickCmd] else []) := by
  have h0 : (update m (.detailLoaded f j y rj ry)).2
      = (if (update m (.detailLoaded f j y rj ry)).1.watching = true
         then [Cmd.watchTickCmd] else []) := rfl
  rw [h0, detailLoaded_watching]

theorem detailLoaded_formatted (m : Model) (f j y rj ry : List Char) :
    (update m (.detailLoaded f j y rj ry)).1.detailFormatted = f := by
  simp only [update]
  split_ifs
  · rw [rebuildSearch_proj]
  · rfl

theorem watchTick_cmd_counts (m : Model) :
    countTicks (update m .watchTickEv).2 = 0
    ∧ countFetches (update m .watchTickEv).2 ≤ 1 := by
  simp only [update]
  split_ifs
  · cases hsel : (m.forwardToActive .watchTickEv).selectedManifest with
    | none => simp [hsel, countTicks, countFetches]
    | some sel => simp [hsel, countTicks, countFetches, isWatchTick, isLoadDetail]
  · simp [countTicks, countFetches]

/-- One step of the watch scheduler subsystem, tracking how many watch
ticks and detail fetches are pending (issued but not yet processed): a
pending tick fires (its commands are issued), or a pending fetch resolves
(successfully or with an error) and its completion is applied. -/
structure SchedState where
  model : Model
  pendingTicks : Nat
  pendingFetches : Nat

inductive SchedStep : SchedState → SchedState → Prop where
  | fireTick (s : SchedState) (h : 1 ≤ s.pendingTicks) :
      SchedStep s
        { model := (update s.model .watchTickEv).1,
          pendingTicks := s.pendingTicks - 1 + countTicks (update s.model .watchTickEv).2,
          pendingFetches := s.pendingFetches + countFetches (update s.model .watchTickEv).2 }
  | fetchOk (s : SchedState) (f j y rj ry : List Char) (h : 1 ≤ s.pendingFetches) :
      SchedStep s
        { model := (update s.model (.detailLoaded f j y rj ry)).1,
          pendingTicks := s.pendingTicks
            + countTicks (update s.model (.detailLoaded f j y rj ry)).2,
          pendingFetches := s.pendingFetches - 1
            + countFetches (update s.model (.detailLoaded f j y rj ry)).2 }
  | fetchErr (s : SchedState) (t : List Char) (h : 1 ≤ s.pendingFetches) :
      SchedStep s
        { model := (update s.model (.errEvent t)).1,
          pendingTicks := s.pendingTicks + countTicks (update s.model (.errEvent t)).2,
          pendingFetches := s.pendingFetches - 1
            + countFetches (update s.model (.errEvent t)).2 }

/-- C4.  Watch scheduling discipline:
(i) a watch tick issues exactly one detail fetch when watch is on, a client
is connected and a record is selected, and leaves the model unchanged;
(ii) with no selected record, or (iii) with watch off, a tick issues
nothing; (iv) a fetch completion reschedules the tick exactly when watch is
on at application time (so toggling watch off stops the cycle, toggling it
back on before completion resumes it), never issues a fetch itself, and its
result is applied regardless of the watch flag; (v) in the scheduler
subsystem, every step preserves the invariant that at most one tick or
fetch is pending in total — two ticks can never be pending, so a second
fetch cannot be issued before the first fetch's result has been applied. -/
theorem C4_watch_scheduling_discipline (m : Model)
    (hf : m.filterText = m.filterInput) (hse : m.searchText = m.searchInput) :
    (∀ mw, m.watching = true → m.client = true → m.selectedManifest = some mw →
      update m .watchTickEv = (m, [Cmd.loadDetailCmd mw]))
    ∧ (m.watching = true → m.client = true → m.selectedManifest = none →
      update m .watchTickEv = (m, []))
    ∧ (m.watching = false → update m .watchTickEv = (m, []))
    ∧ (∀ f j y rj ry : List Char,
        (update m (.detailLoaded f j y rj ry)).2
          = (if m.watching = true then [Cmd.watchTickCmd] else [])
        ∧ (update m (.detailLoaded f j y rj ry)).1.detailFormatted = f)
    ∧ (∀ s s2 : SchedState, SchedStep s s2 →
        s.pendingTicks + s.pendingFetches ≤ 1 →
        s2.pendingTicks + s2.pendingFetches ≤ 1) := by
  have hid : m.forwardToActive .watchTickEv = m :=
    forwardToActive_eq_self (fun v => rfl) hf hse
  refine ⟨?_, ?_, ?_, ?_, ?_⟩
  · intro mw hw hc hsel
    simp only [update, hid]
    rw [if_pos (by rw [hw, hc]; rfl), hsel]
  · intro hw hc hsel
    simp only [update, hid]
    rw [if_pos (by rw [hw, hc]; rfl), hsel]
  · intro hw
    simp only [update, hid]
    rw [if_neg (by rw [hw]; simp)]
  · intro f j y rj ry
    exact ⟨detailLoaded_cmds_eq m f j y rj ry, detailLoaded_formatted m f j y rj ry⟩
  · intro s s2 hstep hinv
    cases hstep with
    | fireTick h =>
      obtain ⟨h1, h2⟩ := watchTick_cmd_counts s.model
      simp only [h1]
      omega
    | fetchOk f j y rj ry h =>
      have hcq := detailLoaded_cmds_eq s.model f j y rj ry
      by_cases hw : s.model.watching = true
      · rw [hcq, if_pos hw]
        simp [countTicks, countFetches, List.countP, List.countP.go, isWatchTick,
          isLoadDetail]
        omega
      · rw [hcq, if_neg hw]
        simp only [countTicks, countFetches, List.countP, List.countP.go]
        omega
    | fetchErr t h =>
      have hcmds : (update s.model (.errEvent t)).2 = [] := rfl
      rw [hcmds]
      simp only [countTicks, countFetches, List.countP, List.countP.go]
      omega

/-! ### C4 witness model -/

/-- A concrete main-screen model with watch on and one work record. -/
def watchModel : Model :=
  { newModel [] [] with screen := .main, watching := true, client := true, manifests := [⟨['i'], ['n'], ['c']⟩] }

/-- Witness for C4 at `watchModel`: the tick issues exactly one fetch and
leaves the model unchanged. -/
theorem C4_watch_scheduling_witness :
    (watchModel.filterText = watchModel.filterInput
      ∧ watchModel.searchText = watchModel.searchInput
      ∧ watchModel.watching = true ∧ watchModel.client = true
      ∧ watchModel.selectedManifest = some ⟨['i'], ['n'], ['c']⟩)
    ∧ update watchModel .watchTickEv = (watchModel, [Cmd.loadDetailCmd ⟨['i'], ['n'], ['c']⟩]) :=
  ⟨⟨rfl, rfl, rfl, rfl, by decide⟩,
    (C4_watch_scheduling_discipline watchModel rfl rfl).1 ⟨['i'], ['n'], ['c']⟩
      rfl rfl (by decide)⟩

/-! ### C8: view-mode cycling -/

theorem cycle_mode_val (m : Model) :
    m.cycleDetailViewMode.detailViewMode = m.detailViewMode.next := by
  simp only [Model.cycleDetailViewMode]
  split_ifs
  · rw [rebuildSearch_proj]
  · rfl

theorem cycle_content_val (m : Model) :
    m.cycleDetailViewMode.detailContent
      = Model.activeDetailContent { m with detailViewMode := m.detailViewMode.next } := by
  simp only [Model.cycleDetailViewMode]
  split_ifs
  · rw [rebuildSearch_proj]
  · rfl

theorem cycle_active (m : Model) :
    Model.activeDetailContent m.cycleDetailViewMode
      = Model.activeDetailContent { m with detailViewMode := m.detailViewMode.next } := by
  obtain ⟨dv, dc, sm, sc, vp, h⟩ := cycleDetailViewMode_exists m
  have hdv : dv = m.detailViewMode.next := by
    have hmv := cycle_mode_val m
    rw [h] at hmv
    exact hmv
  rw [h, hdv]
  rfl

theorem cycle_matches_val (m : Model) (h : m.searchText ≠ []) :
    m.cycleDetailViewMode.searchMatches
      = rebuildSearchMatches m.cycleDetailViewMode.detailContent m.searchText := by
  have hmv := cycle_content_val m
  simp only [Model.cycleDetailViewMode] at hmv ⊢
  rw [if_pos h] at hmv ⊢
  rw [rebuildSearch_proj] at hmv ⊢
  simp only [Model.rebuildSearch]
  rw [if_neg h]
  split_ifs
  all_goals try rw [applySearchHighlights_proj]
  all_goals try rw [scrollToMatch_proj]
  all_goals rfl

/-- Pressing `v` on the main screen with the work list focused and no
capture mode active cycles the view mode and issues no command. -/
theorem update_v_eq_cycle (m : Model) (h1 : m.screen = .main)
    (h2 : m.focused = .manifests) (h3 : m.showCreateConsumer = false)
    (h4 : m.showConfirm = false) (h5 : m.filtering = false)
    (h6 : m.searching = false) :
    update m (.keyMsg (.char 'v')) = (m.cycleDetailViewMode, []) := by
  have hfa : m.forwardToActive (.keyMsg (.char 'v')) = m := by
    simp only [Model.forwardToActive, h1, h3, h5, h6, Bool.false_eq_true, if_false]
  simp only [update, hfa, h1, h3, h4, Bool.false_eq_true, if_false]
  rw [if_neg (by decide)]
  simp only [Model.handleMainKey, h2]
  simp only [Model.handleManifestsKey, h5, Bool.false_eq_true, if_false]
  rw [if_neg (by decide), if_neg (by decide), if_neg (by decide),
    if_neg (by decide), if_neg (by decide), if_neg (by decide), if_pos trivial]

theorem cycle_keeps_detail (m : Model) :
    m.cycleDetailViewMode.detailJSON = m.detailJSON
    ∧ m.cycleDetailViewMode.detailYAML = m.detailYAML
    ∧ m.cycleDetailViewMode.detailFormatted = m.detailFormatted
    ∧ m.cycleDetailViewMode.screen = m.screen
    ∧ m.cycleDetailViewMode.focused = m.focused
    ∧ m.cycleDetailViewMode.showCreateConsumer = m.showCreateConsumer
    ∧ m.cycleDetailViewMode.showConfirm = m.showConfirm
    ∧ m.cycleDetailViewMode.filtering = m.filtering
    ∧ m.cycleDetailViewMode.searching = m.searching := by
  obtain ⟨dv, dc, sm, sc, vp, h⟩ := cycleDetailViewMode_exists m
  rw [h]
  exact ⟨rfl, rfl, rfl, rfl, rfl, rfl, rfl, rfl, rfl⟩

theorem activeDetailContent_congr (a b : Model)
    (hm : a.detailViewMode = b.detailViewMode)
    (hj : a.detailJSON = b.detailJSON)
    (hy : a.detailYAML = b.detailYAML)
    (hf : a.detailFormatted = b.detailFormatted) :
    a.activeDetailContent = b.activeDetailContent := by
  unfold Model.activeDetailContent
  rw [hm]
  cases b.detailViewMode <;> simp only [hj, hy, hf]

/-- C8: the view-mode successor cycles formatted → json → yaml → formatted,
so three presses of `v` on the main screen (work list focused, no capture
mode active) return the original mode; no command is issued by any of the
three presses; one press renders the content from the cached pre-built
strings for the new mode and, when a search query is active, reapplies the
search to the re-rendered content; and when the content was the active
render to begin with, three presses restore it. -/
theorem C8_view_mode_cycle (m : Model)
    (h1 : m.screen = .main) (h2 : m.focused = .manifests)
    (h3 : m.showCreateConsumer = false) (h4 : m.showConfirm = false)
    (h5 : m.filtering = false) (h6 : m.searching = false) :
    (DVMode.formatted.next = .json ∧ DVMode.json.next = .yaml
      ∧ DVMode.yaml.next = .formatted ∧ ∀ mo : DVMode, mo.next.next.next = mo)
    ∧ (update m (.keyMsg (.char 'v'))).1.detailViewMode = m.detailViewMode.next
    ∧ (update m (.keyMsg (.char 'v'))).1.detailContent
        = Model.activeDetailContent { m with detailViewMode := m.detailViewMode.next }
    ∧ (m.searchText ≠ [] →
        (update m (.keyMsg (.char 'v'))).1.searchMatches
          = rebuildSearchMatches (update m (.keyMsg (.char 'v'))).1.detailContent m.searchText)
    ∧ (update m (.keyMsg (.char 'v'))).2 = []
    ∧ (update (update m (.keyMsg (.char 'v'))).1 (.keyMsg (.char 'v'))).2 = []
    ∧ (update (update (update m (.keyMsg (.char 'v'))).1 (.keyMsg (.char 'v'))).1
        (.keyMsg (.char 'v'))).2 = []
    ∧ (update (update (update m (.keyMsg (.char 'v'))).1 (.keyMsg (.char 'v'))).1
        (.keyMsg (.char 'v'))).1.detailViewMode = m.detailViewMode
    ∧ (m.detailContent = m.activeDetailContent →
        (update (update (update m (.keyMsg (.char 'v'))).1 (.keyMsg (.char 'v'))).1
          (.keyMsg (.char 'v'))).1.detailContent = m.detailContent) := by
  have e1 : update m (.keyMsg (.char 'v')) = (m.cycleDetailViewMode, []) :=
    update_v_eq_cycle m h1 h2 h3 h4 h5 h6
  have k1 := cycle_keeps_detail m
  have e2 : update m.cycleDetailViewMode (.keyMsg (.char 'v'))
      = (m.cycleDetailViewMode.cycleDetailViewMode, []) :=
    update_v_eq_cycle _ (k1.2.2.2.1.trans h1) (k1.2.2.2.2.1.trans h2)
      (k1.2.2.2.2.2.1.trans h3) (k1.2.2.2.2.2.2.1.trans h4)
      (k1.2.2.2.2.2.2.2.1.trans h5) (k1.2.2.2.2.2.2.2.2.trans h6)
  have k2 := cycle_keeps_detail m.cycleDetailViewMode
  have e3 : update m.cycleDetailViewMode.cycleDetailViewMode (.keyMsg (.char 'v'))
      = (m.cycleDetailViewMode.cycleDetailViewMode.cycleDetailViewMode, []) :=
    update_v_eq_cycle _ (k2.2.2.2.1.trans (k1.2.2.2.1.trans h1))
      (k2.2.2.2.2.1.trans (k1.2.2.2.2.1.trans h2))
      (k2.2.2.2.2.2.1.trans (k1.2.2.2.2.2.1.trans h3))
      (k2.2.2.2.2.2.2.1.trans (k1.2.2.2.2.2.2.1.trans h4))
      (k2.2.2.2.2.2.2.2.1.trans (k1.2.2.2.2.2.2.2.1.trans h5))
      (k2.2.2.2.2.2.2.2.2.trans (k1.2.2.2.2.2.2.2.2.trans h6))
  have hc1 : (update m (.keyMsg (.char 'v'))).1 = m.cycleDetailViewMode := by rw [e1]
  have hc2 : (update (update m (.keyMsg (.char 'v'))).1 (.keyMsg (.char 'v'))).1
      = m.cycleDetailViewMode.cycleDetailViewMode := by rw [hc1, e2]
  have hc3 : (update (update (update m (.keyMsg (.char 'v'))).1 (.keyMsg (.char 'v'))).1
      (.keyMsg (.char 'v'))).1
      = m.cycleDetailViewMode.cycleDetailViewMode.cycleDetailViewMode := by rw [hc2, e3]
  refine ⟨⟨rfl, rfl, rfl, fun mo => by cases mo <;> rfl⟩, ?_, ?_, ?_, ?_, ?_, ?_, ?_, ?_⟩
  · rw [hc1]
    exact cycle_mode_val m
  · rw [hc1]
    exact cycle_content_val m
  · intro hq
    rw [hc1]
    exact cycle_matches_val m hq
  · rw [e1]
  · rw [hc1, e2]
  · rw [hc2, e3]
  · rw [hc3, cycle_mode_val, cycle_mode_val, cycle_mode_val]
    cases m.detailViewMode <;> rfl
  · intro h7
    rw [hc3, cycle_content_val]
    have hcg : Model.activeDetailContent
        { m.cycleDetailViewMode.cycleDetailViewMode with
          detailViewMode := m.cycleDetailViewMode.cycleDetailViewMode.detailViewMode.next }
        = Model.activeDetailContent m := by
      refine activeDetailContent_congr _ _ ?_ ?_ ?_ ?_
      · show m.cycleDetailViewMode.cycleDetailViewMode.detailViewMode.next = m.detailViewMode
        rw [cycle_mode_val, cycle_mode_val]
        cases m.detailViewMode <;> rfl
      · exact k2.1.trans k1.1
      · exact k2.2.1.trans k1.2.1
      · exact k2.2.2.1.trans k1.2.2.1
    rw [hcg]
    exact h7.symm

/-- Witness for C8 at a concrete quiet main-screen model. -/
theorem C8_view_mode_cycle_witness :
    (({ newModel [] [] with screen := .main, focused := .manifests } : Model).screen = .main
      ∧ ({ newModel [] [] with screen := .main, focused := .manifests } : Model).focused = .manifests)
    ∧ ∀ mo : DVMode, mo.next.next.next = mo :=
  ⟨⟨rfl, rfl⟩,
    (C8_view_mode_cycle { newModel [] [] with screen := .main, focused := .manifests }
      rfl rfl rfl rfl rfl rfl).1.2.2.2⟩

/-! ### C6: failure semantics of asynchronous completions -/

/-- A main-screen model with the create-consumer modal open and a pending name. -/
def createModalModel : Model :=
  { newModel [] [] with screen := .main, client := true, showCreateConsumer := true, createInput := ['a'] }

/-- C6 counterexample: pressing Enter in the create-consumer modal issues the
create command but leaves the modal open, and the subsequent error completion
still leaves it open — a failed create does not end with the modal closed. -/
theorem C6_create_failure_counterexample :
    (update createModalModel (.keyMsg .enter)).1.showCreateConsumer = true
    ∧ Cmd.createConsumerNet ['a'] ∈ (update createModalModel (.keyMsg .enter)).2
    ∧ (update (update createModalModel (.keyMsg .enter)).1 (.errEvent ['x'])).1.showCreateConsumer
        = true
    ∧ (update (update createModalModel (.keyMsg .enter)).1 (.errEvent ['x'])).1.errMsg2 = ['x'] := by
  refine ⟨rfl, ?_, rfl, rfl⟩
  show Cmd.createConsumerNet ['a'] ∈ [Cmd.spinnerTickCmd, Cmd.createConsumerNet ['a']]
  exact List.mem_cons_of_mem _ (List.mem_singleton.mpr rfl)

/-- C6 (amended): an error completion clears both loading indicators, stores
the error text in the single error slot, clears the status message, leaves
every other field unchanged, and issues no command; the delete-confirmation
modal is closed at confirmation time (on `y`, `Y` and on escape), so a failed
delete ends with its modal closed; the create-consumer modal, by contrast, is
left exactly as it was by an error completion (it closes only on a success
completion), so a failed create leaves it open. -/
theorem C6_failure_semantics (m : Model) (text : List Char)
    (hf : m.filterText = m.filterInput) (hse : m.searchText = m.searchInput) :
    update m (.errEvent text)
      = ({ m with loading := false, connectLoading := false, errMsg2 := text, statusMsg := [] }, [])
    ∧ (m.handleConfirmKey (.char 'y')).1.showConfirm = false
    ∧ (m.handleConfirmKey (.char 'Y')).1.showConfirm = false
    ∧ (m.handleConfirmKey .escape).1.showConfirm = false
    ∧ (update m (.errEvent text)).1.showCreateConsumer = m.showCreateConsumer
    ∧ (update m (.errEvent text)).1.createInput = m.createInput := by
  have hfa : m.forwardToActive (.errEvent text) = m :=
    forwardToActive_eq_self (fun v => rfl) hf hse
  have h1 : update m (.errEvent text)
      = ({ m with loading := false, connectLoading := false, errMsg2 := text, statusMsg := [] }, []) := by
    simp only [update]
    rw [hfa]
  refine ⟨h1, ?_, ?_, ?_, by rw [h1], by rw [h1]⟩
  · unfold Model.handleConfirmKey
    rw [if_neg (by decide), if_pos (Or.inl rfl)]
    split_ifs <;> rfl
  · unfold Model.handleConfirmKey
    rw [if_neg (by decide), if_pos (Or.inr rfl)]
    split_ifs <;> rfl
  · unfold Model.handleConfirmKey
    rw [if_pos rfl]

/-- Witness for C6 at the concrete create-modal model. -/
theorem C6_failure_semantics_witness :
    (createModalModel.filterText = createModalModel.filterInput
      ∧ createModalModel.searchText = createModalModel.searchInput)
    ∧ (update createModalModel (.errEvent ['e'])).1.showCreateConsumer
        = createModalModel.showCreateConsumer :=
  ⟨⟨rfl, rfl⟩, (C6_failure_semantics createModalModel ['e'] rfl rfl).2.2.2.2.1⟩

/-! ### C7: panel hit-testing -/

/-- C7: a left-click press in the left column resolves as follows.  In the
work-list region (`y` at or below the consumer region of height
`2*(height-1)/5`) there are 3 header rows; a click below them resolves to
index `y - consumerH - 3 + manifestOffset`, moving the cursor and issuing a
detail fetch when in bounds, and only focusing the panel otherwise; a click
in the header rows only focuses the panel.  The consumer region works the
same way with 2 header rows, issuing a manifest load when in bounds. -/
theorem C7_panel_hit_testing (m : Model) (x y : Nat)
    (hscreen : m.screen = .main)
    (hf : m.filterText = m.filterInput) (hse : m.searchText = m.searchInput)
    (hx : x < 2 * m.width / 5) :
    (2 * (m.height - 1) / 5 ≤ y → y < 2 * (m.height - 1) / 5 + 3 →
      update m (.mouseMsg .left .press x y) = ({ m with focused := .manifests }, []))
    ∧ (2 * (m.height - 1) / 5 + 3 ≤ y →
        y - 2 * (m.height - 1) / 5 - 3 + m.manifestOffset < m.filteredManifests.length →
        update m (.mouseMsg .left .press x y)
          = ({ m with focused := .manifests, manifestCursor := y - 2 * (m.height - 1) / 5 - 3 + m.manifestOffset }, [Cmd.loadDetailCmd (m.filteredManifests.getD (y - 2 * (m.height - 1) / 5 - 3 + m.manifestOffset) ⟨[], [], []⟩)]))
    ∧ (2 * (m.height - 1) / 5 + 3 ≤ y →
        m.filteredManifests.length ≤ y - 2 * (m.height - 1) / 5 - 3 + m.manifestOffset →
        update m (.mouseMsg .left .press x y) = ({ m with focused := .manifests }, []))
    ∧ (y < 2 * (m.height - 1) / 5 → y < 2 →
        update m (.mouseMsg .left .press x y) = ({ m with focused := .consumers }, []))
    ∧ (y < 2 * (m.height - 1) / 5 → 2 ≤ y → y - 2 + m.consumerOffset < m.consumers.length →
        update m (.mouseMsg .left .press x y)
          = ({ m with focused := .consumers, consumerCursor := y - 2 + m.consumerOffset, loading := true, manifests := [], detailContent := [], viewport := m.viewport.setContent [] }, [Cmd.spinnerTickCmd, Cmd.loadManifestsCmd ((m.consumers.getD (y - 2 + m.consumerOffset) ⟨[], []⟩).name)]))
    ∧ (y < 2 * (m.height - 1) / 5 → 2 ≤ y → m.consumers.length ≤ y - 2 + m.consumerOffset →
        update m (.mouseMsg .left .press x y) = ({ m with focused := .consumers }, [])) := by
  have hfa : m.forwardToActive (.mouseMsg .left .press x y) = m :=
    forwardToActive_eq_self (fun v => rfl) hf hse
  have hu : update m (.mouseMsg .left .press x y) = m.handleMouse .left .press x y := by
    show (m.forwardToActive (.mouseMsg .left .press x y)).handleMouse .left .press x y
      = m.handleMouse .left .press x y
    rw [hfa]
  have hmm : m.handleMouse .left .press x y
      = if y < 2 * (m.height - 1) / 5 then m.mouseClickConsumer y
        else m.mouseClickManifest y (2 * (m.height - 1) / 5) := by
    show (if m.screen ≠ Screen.main then (m, ([] : List Cmd))
        else if (MouseAction.press ≠ MouseAction.press) then (m, [])
        else if x < 2 * m.width / 5 then
          (if y < 2 * (m.height - 1) / 5 then m.mouseClickConsumer y
           else m.mouseClickManifest y (2 * (m.height - 1) / 5))
        else ({ m with focused := Panel.detail }, []))
      = if y < 2 * (m.height - 1) / 5 then m.mouseClickConsumer y
        else m.mouseClickManifest y (2 * (m.height - 1) / 5)
    rw [if_neg (fun hne => hne hscreen), if_neg (fun h => h rfl), if_pos hx]
  refine ⟨?_, ?_, ?_, ?_, ?_, ?_⟩
  · intro h1 h2
    rw [hu, hmm, if_neg (Nat.not_lt.mpr h1)]
    simp only [Model.mouseClickManifest]
    rw [if_pos h2]
  · intro h1 h2
    rw [hu, hmm, if_neg (Nat.not_lt.mpr (Nat.le_trans (Nat.le_add_right _ 3) h1))]
    simp only [Model.mouseClickManifest]
    rw [if_neg (Nat.not_lt.mpr h1), if_neg (Nat.not_le.mpr h2)]
  · intro h1 h2
    rw [hu, hmm, if_neg (Nat.not_lt.mpr (Nat.le_trans (Nat.le_add_right _ 3) h1))]
    simp only [Model.mouseClickManifest]
    rw [if_neg (Nat.not_lt.mpr h1), if_pos h2]
  · intro h1 h2
    rw [hu, hmm, if_pos h1]
    simp only [Model.mouseClickConsumer]
    rw [if_pos h2]
  · intro h1 h2 h3
    rw [hu, hmm, if_pos h1]
    simp only [Model.mouseClickConsumer]
    rw [if_neg (Nat.not_lt.mpr h2), if_neg (Nat.not_le.mpr h3)]
  · intro h1 h2 h3
    rw [hu, hmm, if_pos h1]
    simp only [Model.mouseClickConsumer]
    rw [if_neg (Nat.not_lt.mpr h2), if_pos h3]

/-- A concrete 100x41 main-screen model with one consumer and one work record. -/
def clickModel : Model :=
  { newModel [] [] with screen := .main, width := 100, height := 41, consumers := [⟨['i'], ['c']⟩], manifests := [⟨['i'], ['n'], ['c']⟩] }

/-- Witness for C7: on a 100x41 terminal the consumer region is 16 rows
high, so a click at row 19 in the left column resolves to work-list index 0
and issues a detail fetch. -/
theorem C7_panel_hit_testing_witness :
    (clickModel.screen = .main ∧ clickModel.filterText = clickModel.filterInput
      ∧ clickModel.searchText = clickModel.searchInput ∧ 0 < 2 * clickModel.width / 5
      ∧ 2 * (clickModel.height - 1) / 5 + 3 ≤ 19
      ∧ 19 - 2 * (clickModel.height - 1) / 5 - 3 + clickModel.manifestOffset
          < clickModel.filteredManifests.length)
    ∧ update clickModel (.mouseMsg .left .press 0 19)
        = ({ clickModel with focused := .manifests, manifestCursor := 19 - 2 * (clickModel.height - 1) / 5 - 3 + clickModel.manifestOffset }, [Cmd.loadDetailCmd (clickModel.filteredManifests.getD (19 - 2 * (clickModel.height - 1) / 5 - 3 + clickModel.manifestOffset) ⟨[], [], []⟩)]) :=
  ⟨⟨rfl, rfl, rfl, by decide, by decide, by decide⟩,
    (C7_panel_hit_testing clickModel 0 19 rfl rfl rfl (by decide)).2.1
      (by decide) (by decide)⟩

/-! ### C5: capture-mode exclusivity -/

/-- The capture-mode invariant: each active capture mode excludes the other
three and pins down the focus/screen the program granted it in. -/
def CapInv (m : Model) : Prop :=
  (m.filtering = true → m.searching = false ∧ m.showCreateConsumer = false
    ∧ m.showConfirm = false ∧ m.focused = .manifests ∧ m.screen = .main)
  ∧ (m.searching = true → m.filtering = false ∧ m.showCreateConsumer = false
    ∧ m.showConfirm = false ∧ m.focused = .detail ∧ m.screen = .main)
  ∧ (m.showCreateConsumer = true → m.filtering = false ∧ m.searching = false
    ∧ m.showConfirm = false ∧ m.screen = .main)
  ∧ (m.showConfirm = true → m.filtering = false ∧ m.searching = false
    ∧ m.showCreateConsumer = false ∧ m.screen = .main)

/-- Events under which exclusivity is claimed: no left-button mouse press
(a left click moves focus without leaving a capture mode), and a connect
completion only while still on the connect screen. -/
def AllowedMsg (m : Model) (msg : Msg) : Prop :=
  (∀ x y, msg ≠ .mouseMsg .left .press x y)
  ∧ (∀ cs, msg = .connected cs → m.screen = .connect)

inductive ReachStep : Model → Model → Prop where
  | step (m : Model) (msg : Msg) (h : AllowedMsg m msg) : ReachStep m (update m msg).1

/-- States reachable from the initial model by allowed events. -/
def Reachable (endpoint token : List Char) (m : Model) : Prop :=
  Relation.ReflTransGen ReachStep (newModel endpoint token) m

theorem capInv_congr (a b : Model) (h1 : b.filtering = a.filtering)
    (h2 : b.searching = a.searching) (h3 : b.showCreateConsumer = a.showCreateConsumer)
    (h4 : b.showConfirm = a.showConfirm) (h5 : b.focused = a.focused)
    (h6 : b.screen = a.screen) (hi : CapInv a) : CapInv b := by
  unfold CapInv at *
  rw [h1, h2, h3, h4, h5, h6]
  exact hi

theorem capInv_all_false (b : Model) (h1 : b.filtering = false) (h2 : b.searching = false)
    (h3 : b.showCreateConsumer = false) (h4 : b.showConfirm = false) : CapInv b := by
  refine ⟨fun h => ?_, fun h => ?_, fun h => ?_, fun h => ?_⟩ <;> simp_all

theorem capInv_only_filtering (b : Model) (h2 : b.searching = false)
    (h3 : b.showCreateConsumer = false) (h4 : b.showConfirm = false)
    (h5 : b.focused = .manifests) (h6 : b.screen = .main) : CapInv b := by
  refine ⟨fun h => ⟨h2, h3, h4, h5, h6⟩, fun h => ?_, fun h => ?_, fun h => ?_⟩ <;> simp_all

theorem capInv_only_searching (b : Model) (h1 : b.filtering = false)
    (h3 : b.showCreateConsumer = false) (h4 : b.showConfirm = false)
    (h5 : b.focused = .detail) (h6 : b.screen = .main) : CapInv b := by
  refine ⟨fun h => ?_, fun h => ⟨h1, h3, h4, h5, h6⟩, fun h => ?_, fun h => ?_⟩ <;> simp_all

theorem capInv_only_create (b : Model) (h1 : b.filtering = false) (h2 : b.searching = false)
    (h4 : b.showConfirm = false) (h6 : b.screen = .main) : CapInv b := by
  refine ⟨fun h => ?_, fun h => ?_, fun h => ⟨h1, h2, h4, h6⟩, fun h => ?_⟩ <;> simp_all

theorem capInv_only_confirm (b : Model) (h1 : b.filtering = false) (h2 : b.searching = false)
    (h3 : b.showCreateConsumer = false) (h6 : b.screen = .main) : CapInv b := by
  refine ⟨fun h => ?_, fun h => ?_, fun h => ?_, fun h => ⟨h1, h2, h3, h6⟩⟩ <;> simp_all

theorem capInv_close_create (a b : Model) (h1 : b.filtering = a.filtering)
    (h2 : b.searching = a.searching) (h3 : b.showCreateConsumer = false)
    (h4 : b.showConfirm = a.showConfirm) (h5 : b.focused = a.focused)
    (h6 : b.screen = a.screen) (hi : CapInv a) : CapInv b := by
  refine ⟨fun h => ?_, fun h => ?_, fun h => ?_, fun h => ?_⟩
  · have hc := hi.1 (h1 ▸ h)
    exact ⟨h2.trans hc.1, h3, h4.trans hc.2.2.1, h5.trans hc.2.2.2.1, h6.trans hc.2.2.2.2⟩
  · have hc := hi.2.1 (h2 ▸ h)
    exact ⟨h1.trans hc.1, h3, h4.trans hc.2.2.1, h5.trans hc.2.2.2.1, h6.trans hc.2.2.2.2⟩
  · rw [h3] at h
    exact absurd h Bool.false_ne_true
  · have hc := hi.2.2.2 (h4 ▸ h)
    exact ⟨h1.trans hc.1, h2.trans hc.2.1, h3, h6.trans hc.2.2.2⟩

theorem capInv_close_confirm (a b : Model) (h1 : b.filtering = a.filtering)
    (h2 : b.searching = a.searching) (h3 : b.showCreateConsumer = a.showCreateConsumer)
    (h4 : b.showConfirm = false) (h5 : b.focused = a.focused)
    (h6 : b.screen = a.screen) (hi : CapInv a) : CapInv b := by
  refine ⟨fun h => ?_, fun h => ?_, fun h => ?_, fun h => ?_⟩
  · have hc := hi.1 (h1 ▸ h)
    exact ⟨h2.trans hc.1, h3.trans hc.2.1, h4, h5.trans hc.2.2.2.1, h6.trans hc.2.2.2.2⟩
  · have hc := hi.2.1 (h2 ▸ h)
    exact ⟨h1.trans hc.1, h3.trans hc.2.1, h4, h5.trans hc.2.2.2.1, h6.trans hc.2.2.2.2⟩
  · have hc := hi.2.2.1 (h3 ▸ h)
    exact ⟨h1.trans hc.1, h2.trans hc.2.1, h4, h6.trans hc.2.2.2⟩
  · rw [h4] at h
    exact absurd h Bool.false_ne_true

theorem capInv_rebuildSearch (m : Model) (hi : CapInv m) : CapInv m.rebuildSearch := by
  obtain ⟨sm, sc, vp, h⟩ := rebuildSearch_exists m
  exact capInv_congr m _ (by rw [h]) (by rw [h]) (by rw [h]) (by rw [h]) (by rw [h])
    (by rw [h]) hi

theorem capInv_nextSearchMatch (m : Model) (hi : CapInv m) : CapInv m.nextSearchMatch := by
  obtain ⟨sc, vp, h⟩ := nextSearchMatch_exists m
  exact capInv_congr m _ (by rw [h]) (by rw [h]) (by rw [h]) (by rw [h]) (by rw [h])
    (by rw [h]) hi

theorem capInv_prevSearchMatch (m : Model) (hi : CapInv m) : CapInv m.prevSearchMatch := by
  obtain ⟨sc, vp, h⟩ := prevSearchMatch_exists m
  exact capInv_congr m _ (by rw [h]) (by rw [h]) (by rw [h]) (by rw [h]) (by rw [h])
    (by rw [h]) hi

theorem capInv_cycle (m : Model) (hi : CapInv m) : CapInv m.cycleDetailViewMode := by
  have k := cycle_keeps_detail m
  exact capInv_congr m _ k.2.2.2.2.2.2.2.1 k.2.2.2.2.2.2.2.2 k.2.2.2.2.2.1
    k.2.2.2.2.2.2.1 k.2.2.2.2.1 k.2.2.2.1 hi

theorem capInv_ite_model (c : Prop) [Decidable c] (a b : Model)
    (ha : CapInv a) (hb : CapInv b) : CapInv (if c then a else b) := by
  by_cases h : c
  · rw [if_pos h]
    exact ha
  · rw [if_neg h]
    exact hb

theorem capInv_ite_pair (c : Prop) [Decidable c] (p q : Model × List Cmd)
    (hp : CapInv p.1) (hq : CapInv q.1) : CapInv (if c then p else q).1 := by
  by_cases h : c
  · rw [if_pos h]
    exact hp
  · rw [if_neg h]
    exact hq

theorem capInv_handleMouse (m : Model) (b : MouseButton) (a : MouseAction) (x y : Nat)
    (hi : CapInv m) (hnp : b = .left → a ≠ .press) :
    CapInv (m.handleMouse b a x y).1 := by
  cases b with
  | left =>
    simp only [Model.handleMouse]
    split_ifs with h1 h2
    · exact hi
    · exact hi
    all_goals exact absurd (hnp rfl) h2
  | wheelUp =>
    simp only [Model.handleMouse]
    split_ifs <;>
      first
        | exact hi
        | exact capInv_congr _ _ rfl rfl rfl rfl rfl rfl hi
        | (split <;> exact capInv_congr _ _ rfl rfl rfl rfl rfl rfl hi)
  | wheelDown =>
    simp only [Model.handleMouse]
    split_ifs <;>
      first
        | exact hi
        | exact capInv_congr _ _ rfl rfl rfl rfl rfl rfl hi
        | (split <;> exact capInv_congr _ _ rfl rfl rfl rfl rfl rfl hi)
  | other =>
    simp only [Model.handleMouse]
    split_ifs <;> exact hi

theorem capInv_route_key (n : Model) (k : Key) (hi : CapInv n) :
    CapInv ((if k = .ctrlC then (n, [Cmd.quit])
      else match n.screen with
        | .connect => n.handleConnectKey k
        | .main =>
          if n.showCreateConsumer then n.handleCreateConsumerKey k
          else if n.showConfirm then n.handleConfirmKey k
          else n.handleMainKey k).1) := by
  by_cases hq : k = .ctrlC
  · rw [if_pos hq]
    exact hi
  · rw [if_neg hq]
    cases hs : n.screen with
    | connect =>
      have hf4 : n.filtering = false ∧ n.searching = false
          ∧ n.showCreateConsumer = false ∧ n.showConfirm = false := by
        refine ⟨?_, ?_, ?_, ?_⟩
        · cases hb : n.filtering
          · rfl
          · have hc := (hi.1 hb).2.2.2.2
            rw [hs] at hc
            exact absurd hc (by simp)
        · cases hb : n.searching
          · rfl
          · have hc := (hi.2.1 hb).2.2.2.2
            rw [hs] at hc
            exact absurd hc (by simp)
        · cases hb : n.showCreateConsumer
          · rfl
          · have hc := (hi.2.2.1 hb).2.2.2
            rw [hs] at hc
            exact absurd hc (by simp)
        · cases hb : n.showConfirm
          · rfl
          · have hc := (hi.2.2.2 hb).2.2.2
            rw [hs] at hc
            exact absurd hc (by simp)
      cases k <;> simp only [Model.handleConnectKey, Model.doConnect] <;>
        (try split_ifs) <;>
        exact capInv_all_false _ hf4.1 hf4.2.1 hf4.2.2.1 hf4.2.2.2
    | main =>
      by_cases hbc : n.showCreateConsumer = true
      · rw [if_pos hbc]
        have h3 := hi.2.2.1 hbc
        cases k <;> simp only [Model.handleCreateConsumerKey] <;> (try split_ifs) <;>
          first
            | exact hi
            | exact capInv_all_false _ h3.1 h3.2.1 rfl h3.2.2.1
            | exact capInv_only_create _ h3.1 h3.2.1 h3.2.2.1 hs
      · rw [if_neg hbc]
        have hcrf : n.showCreateConsumer = false := by
          revert hbc
          cases n.showCreateConsumer <;> simp
        by_cases hbf : n.showConfirm = true
        · rw [if_pos hbf]
          have h4 := hi.2.2.2 hbf
          unfold Model.handleConfirmKey
          split_ifs <;>
            first
              | exact hi
              | exact capInv_all_false _ h4.1 h4.2.1 h4.2.2.1 rfl
        · rw [if_neg hbf]
          have hcff : n.showConfirm = false := by
            revert hbf
            cases n.showConfirm <;> simp
          cases hfo : n.focused with
          | consumers =>
            have hflf : n.filtering = false := by
              cases hb : n.filtering
              · rfl
              · have hc := (hi.1 hb).2.2.2.1
                rw [hfo] at hc
                exact absurd hc (by simp)
            have hsrf : n.searching = false := by
              cases hb : n.searching
              · rfl
              · have hc := (hi.2.1 hb).2.2.2.1
                rw [hfo] at hc
                exact absurd hc (by simp)
            simp only [Model.handleMainKey, hfo, Model.handleConsumersKey]
            split_ifs <;>
              first
                | exact hi
                | exact capInv_all_false _ hflf hsrf hcrf hcff
                | exact capInv_only_create _ hflf hsrf hcff hs
                | exact capInv_only_confirm _ hflf hsrf hcrf hs
          | manifests =>
            have hsrf : n.searching = false := by
              cases hb : n.searching
              · rfl
              · have hc := (hi.2.1 hb).2.2.2.1
                rw [hfo] at hc
                exact absurd hc (by simp)
            simp only [Model.handleMainKey, hfo, Model.handleManifestsKey]
            by_cases hfl : n.filtering = true
            · rw [if_pos hfl]
              cases k <;>
                first
                  | exact capInv_all_false _ rfl hsrf hcrf hcff
                  | exact hi
            · rw [if_neg hfl]
              have hflf : n.filtering = false := by
                revert hfl
                cases n.filtering <;> simp
              repeat' first | apply capInv_ite_pair | apply capInv_ite_model
              all_goals
                first
                  | exact hi
                  | exact capInv_all_false _ hflf hsrf hcrf hcff
                  | exact capInv_only_filtering _ hsrf hcrf hcff rfl hs
                  | exact capInv_only_confirm _ hflf hsrf hcrf hs
                  | exact capInv_cycle n hi
          | detail =>
            have hflf : n.filtering = false := by
              cases hb : n.filtering
              · rfl
              · have hc := (hi.1 hb).2.2.2.1
                rw [hfo] at hc
                exact absurd hc (by simp)
            simp only [Model.handleMainKey, hfo, Model.handleDetailKey]
            by_cases hsr : n.searching = true
            · rw [if_pos hsr]
              have h2 := hi.2.1 hsr
              cases k <;>
                first
                  | exact capInv_all_false _ h2.1 rfl hcrf hcff
                  | exact capInv_nextSearchMatch _ hi
                  | exact hi
            · rw [if_neg hsr]
              have hsrf : n.searching = false := by
                revert hsr
                cases n.searching <;> simp
              repeat' first | apply capInv_ite_pair | apply capInv_ite_model
              all_goals
                first
                  | exact hi
                  | exact capInv_all_false _ hflf hsrf hcrf hcff
                  | exact capInv_only_searching _ hflf hcrf hcff rfl hs
                  | exact capInv_nextSearchMatch _ hi
                  | exact capInv_prevSearchMatch _ hi
                  | exact capInv_cycle _ hi
                  | (split <;>
                      first
                        | exact hi
                        | exact capInv_all_false _ hflf hsrf hcrf hcff)

theorem capInv_step (m : Model) (msg : Msg) (hinv : CapInv m)
    (hmouse : ∀ x y, msg ≠ .mouseMsg .left .press x y)
    (hconn : ∀ cs, msg = .connected cs → m.screen = .connect) :
    CapInv (update m msg).1 := by
  have hks := forwardToActive_keeps m msg
  have hinvf : CapInv (m.forwardToActive msg) :=
    capInv_congr m _ hks.2.2.1 hks.2.2.2.1 hks.2.2.2.2.1 hks.2.2.2.2.2.1 hks.2.1
      hks.1 hinv
  cases msg with
  | windowSize w h =>
    exact capInv_congr _ _ rfl rfl rfl rfl rfl rfl hinvf
  | spinnerTickEv =>
    simp only [update]
    split_ifs
    · exact capInv_congr _ _ rfl rfl rfl rfl rfl rfl hinvf
    · exact hinvf
  | errEvent text =>
    exact capInv_congr _ _ rfl rfl rfl rfl rfl rfl hinvf
  | connected cs =>
    have hsc : m.screen = .connect := hconn cs rfl
    have hff : m.filtering = false := by
      cases hb : m.filtering
      · rfl
      · have hc := (hinv.1 hb).2.2.2.2
        rw [hsc] at hc
        exact absurd hc (by simp)
    have hsf : m.searching = false := by
      cases hb : m.searching
      · rfl
      · have hc := (hinv.2.1 hb).2.2.2.2
        rw [hsc] at hc
        exact absurd hc (by simp)
    have hcf : m.showCreateConsumer = false := by
      cases hb : m.showCreateConsumer
      · rfl
      · have hc := (hinv.2.2.1 hb).2.2.2
        rw [hsc] at hc
        exact absurd hc (by simp)
    have hconf : m.showConfirm = false := by
      cases hb : m.showConfirm
      · rfl
      · have hc := (hinv.2.2.2 hb).2.2.2
        rw [hsc] at hc
        exact absurd hc (by simp)
    cases cs with
    | nil =>
      exact capInv_all_false _ (hks.2.2.1.trans hff) (hks.2.2.2.1.trans hsf)
        (hks.2.2.2.2.1.trans hcf) (hks.2.2.2.2.2.1.trans hconf)
    | cons c0 rest =>
      simp only [update]
      apply capInv_ite_model
      · exact capInv_all_false _ (hks.2.2.1.trans hff) (hks.2.2.2.1.trans hsf)
          (hks.2.2.2.2.1.trans hcf) (hks.2.2.2.2.2.1.trans hconf)
      · exact capInv_all_false _ (hks.2.2.1.trans hff) (hks.2.2.2.1.trans hsf)
          (hks.2.2.2.2.1.trans hcf) (hks.2.2.2.2.2.1.trans hconf)
  | consumersLoaded cs =>
    exact capInv_congr _ _ rfl rfl rfl rfl rfl rfl hinvf
  | manifestsLoaded ms =>
    cases ms with
    | nil => exact capInv_congr _ _ rfl rfl rfl rfl rfl rfl hinvf
    | cons mw0 rest => exact capInv_congr _ _ rfl rfl rfl rfl rfl rfl hinvf
  | detailLoaded f j y rj ry =>
    simp only [update]
    split_ifs
    · exact capInv_rebuildSearch _ (capInv_congr _ _ rfl rfl rfl rfl rfl rfl hinvf)
    · exact capInv_congr _ _ rfl rfl rfl rfl rfl rfl hinvf
  | watchTickEv =>
    simp only [update]
    split_ifs
    · split
      · exact hinvf
      · exact hinvf
    · exact hinvf
  | consumerCreated name =>
    exact capInv_close_create (m.forwardToActive (.consumerCreated name)) _
      rfl rfl rfl rfl rfl rfl hinvf
  | consumerDeleted =>
    exact capInv_close_confirm (m.forwardToActive .consumerDeleted) _
      rfl rfl rfl rfl rfl rfl hinvf
  | manifestDeleted =>
    simp only [update]
    apply capInv_ite_pair
    · exact capInv_close_confirm (m.forwardToActive .manifestDeleted) _
        rfl rfl rfl rfl rfl rfl hinvf
    · exact capInv_close_confirm (m.forwardToActive .manifestDeleted) _
        rfl rfl rfl rfl rfl rfl hinvf
  | clipboardDone errText =>
    cases errText with
    | some e => exact capInv_congr _ _ rfl rfl rfl rfl rfl rfl hinvf
    | none => exact capInv_congr _ _ rfl rfl rfl rfl rfl rfl hinvf
  | mouseMsg b a x y =>
    refine capInv_handleMouse _ b a x y hinvf ?_
    intro hb ha
    exact hmouse x y (by rw [hb, ha])
  | keyMsg k =>
    exact capInv_route_key (m.forwardToActive (.keyMsg k)) k hinvf

theorem capInv_newModel (endpoint token : List Char) : CapInv (newModel endpoint token) :=
  capInv_all_false _ rfl rfl rfl rfl

/-- C5 counterexample: start a filter with `/`, left-click the consumer panel
header (which moves focus without leaving filter mode), then press `d`: the
delete-confirmation modal opens while filter mode is still active, so two
capture modes are active at once. -/
theorem C5_capture_exclusivity_counterexample :
    (([Msg.windowSize 100 40, .connected [⟨['i'], ['c']⟩], .keyMsg (.char '/'),
        .mouseMsg .left .press 1 0, .keyMsg (.char 'd')] : List Msg).foldl
        (fun s msg => (update s msg).1) (newModel [] [])).filtering = true
    ∧ (([Msg.windowSize 100 40, .connected [⟨['i'], ['c']⟩], .keyMsg (.char '/'),
        .mouseMsg .left .press 1 0, .keyMsg (.char 'd')] : List Msg).foldl
        (fun s msg => (update s msg).1) (newModel [] [])).showConfirm = true :=
  ⟨rfl, rfl⟩

/-- C5 (amended): in every state reachable from the initial model by
keyboard, timer, wheel/non-left-press mouse, and command-completion events,
with connect completions arriving only on the connect screen, at most one of
the four capture-mode flags is true.  (Left-button mouse presses are
excluded: they move focus without leaving the active capture mode, from
which two modes can be made active at once — see the counterexample.) -/
theorem C5_capture_mode_exclusivity (endpoint token : List Char) (m : Model)
    (h : Reachable endpoint token m) :
    (m.filtering = true → m.searching = false ∧ m.showCreateConsumer = false
      ∧ m.showConfirm = false)
    ∧ (m.searching = true → m.filtering = false ∧ m.showCreateConsumer = false
      ∧ m.showConfirm = false)
    ∧ (m.showCreateConsumer = true → m.filtering = false ∧ m.searching = false
      ∧ m.showConfirm = false)
    ∧ (m.showConfirm = true → m.filtering = false ∧ m.searching = false
      ∧ m.showCreateConsumer = false) := by
  have hinv : CapInv m := by
    unfold Reachable at h
    induction h with
    | refl => exact capInv_newModel endpoint token
    | tail hab hbc ih =>
      cases hbc with
      | step msg hall => exact capInv_step _ msg ih hall.1 hall.2
  exact ⟨fun hf => ⟨(hinv.1 hf).1, (hinv.1 hf).2.1, (hinv.1 hf).2.2.1⟩,
    fun hse => ⟨(hinv.2.1 hse).1, (hinv.2.1 hse).2.1, (hinv.2.1 hse).2.2.1⟩,
    fun hc => ⟨(hinv.2.2.1 hc).1, (hinv.2.2.1 hc).2.1, (hinv.2.2.1 hc).2.2.1⟩,
    fun hcf => ⟨(hinv.2.2.2 hcf).1, (hinv.2.2.2 hcf).2.1, (hinv.2.2.2 hcf).2.2.1⟩⟩

/-- Witness for C5: the initial model is reachable (empty trace) and the
theorem's exclusivity conclusion holds there. -/
theorem C5_capture_mode_exclusivity_witness :
    ((newModel [] []).filtering = true → (newModel [] []).searching = false
      ∧ (newModel [] []).showCreateConsumer = false ∧ (newModel [] []).showConfirm = false)
    ∧ ((newModel [] []).searching = true → (newModel [] []).filtering = false
      ∧ (newModel [] []).showCreateConsumer = false ∧ (newModel [] []).showConfirm = false)
    ∧ ((newModel [] []).showCreateConsumer = true → (newModel [] []).filtering = false
      ∧ (newModel [] []).searching = false ∧ (newModel [] []).showConfirm = false)
    ∧ ((newModel [] []).showConfirm = true → (newModel [] []).filtering = false
      ∧ (newModel [] []).searching = false ∧ (newModel [] []).showCreateConsumer = false) :=
  C5_capture_mode_exclusivity [] [] (newModel [] []) Relation.ReflTransGen.refl

end MaestroCli
